import Mathlib

/-!
Verification development for the `animepahe-dl` renaming tool
(`rename_animepahe_files.py`).

The Python source is shallowly embedded over `List Char`:

* Python `str` values become `List Char` (via `String.data` for literals);
* the regular expressions of the source are translated into explicit,
  executable scans over `List Char` (the character classes `\s`, `\d`, `\w`
  and `str.lower` are modelled on their ASCII subsets, which covers every
  string manipulated by the tool);
* the filesystem becomes a function from paths to optional contents, and
  `Path.rename` becomes a functional update with POSIX overwrite
  semantics;
* exceptions become explicit error values.

All definitions are computable and structurally recursive (bounded scans
carry explicit fuel equal to the list length), so concrete runs reduce
inside the kernel.
-/

namespace AnimepaheDl

/-- ASCII model of Python's `\s` character class (`re` whitespace). -/
def pySpace (c : Char) : Bool :=
  c == ' ' || c == '\t' || c == '\n' || c == '\r' ||
    c == Char.ofNat 11 || c == Char.ofNat 12

/-- ASCII model of Python's `\d` character class. -/
def pyDigit (c : Char) : Bool :=
  '0' ≤ c && c ≤ '9'

/-- ASCII model of Python's `\w` character class (word characters). -/
def pyWord (c : Char) : Bool :=
  ('a' ≤ c && c ≤ 'z') || ('A' ≤ c && c ≤ 'Z') || pyDigit c || c == '_'

/-- ASCII model of `str.lower` on one character. -/
def lowerChar (c : Char) : Char :=
  if 'A' ≤ c ∧ c ≤ 'Z' then Char.ofNat (c.toNat + 32) else c

/-- Model: `str.lower`, characterwise. -/
def lowerList (l : List Char) : List Char :=
  l.map lowerChar

/-- Model: `l` starts with `p` (model of `str.startswith` / an anchored regex). -/
def listPrefixEq : List Char → List Char → Bool
  | [], _ => true
  | _ :: _, [] => false
  | a :: as, b :: bs => a == b && listPrefixEq as bs

/-- Model: `needle` occurs as a contiguous substring of `hay` (Python's `in`). -/
def containsSub (needle hay : List Char) : Bool :=
  listPrefixEq needle hay ||
    match hay with
    | [] => false
    | _ :: rest => containsSub needle rest

/-- Decimal value of a digit character. -/
def digitVal (c : Char) : Nat :=
  c.toNat - '0'.toNat

/-- Model: `int(...)` on a string of decimal digits. -/
def natOfDigits (ds : List Char) : Nat :=
  ds.foldl (fun a c => a * 10 + digitVal c) 0

/-- Model: `str.zfill`-style left zero padding applied to a digit run, as used in
`replace_trailing_int_with_zfill`: a run of length `≥ w` is kept, a shorter
run is left-padded with `'0'` up to width `w`. -/
def zfill (ds : List Char) (w : Nat) : List Char :=
  if w ≤ ds.length then ds else List.replicate (w - ds.length) '0' ++ ds

/-!  ## Episode extractor (`extract_trailing_int`)

Python: `re.search(r"(\d+)\s*$", text)` followed by `int` on group 1.
The regex matches a maximal digit run that is followed only by whitespace
at the very end of the string; analysed from the reversed string this is
trailing whitespace, then a leading digit run. -/

/-- Model: `extract_trailing_int(text)`: the integer value of the maximal digit run
at the end of the string (trailing whitespace allowed after it), or `none`
when the string (after trailing whitespace) does not end in a digit. -/
def extract_trailing_int (s : List Char) : Option Nat :=
  let dsR := (s.reverse.dropWhile pySpace).takeWhile pyDigit
  if dsR.isEmpty then none else some (natOfDigits dsR.reverse)

/-- Model: `replace_trailing_int_with_zfill(text, width)`: zero-pads the trailing
digit run (matched exactly as in `extract_trailing_int`) up to `width`,
never shrinking it; everything before the run and the trailing whitespace
after it are reproduced verbatim.  Python: `re.search(r"(\d+)(\s*)$", ...)`
and `digits if len(digits) >= width else digits.zfill(width)`. -/
def replace_trailing_int_with_zfill (s : List Char) (w : Nat) : List Char :=
  let r := s.reverse
  let wsR := r.takeWhile pySpace
  let restR := r.dropWhile pySpace
  let dsR := restR.takeWhile pyDigit
  let preR := restR.dropWhile pyDigit
  if dsR.isEmpty then s
  else preR.reverse ++ zfill dsR.reverse w ++ wsR.reverse

/-- Decimal digit count with explicit fuel (structural recursion so that
the kernel can evaluate it); `digitCountGo f n` is `len(str(n))` whenever
`n ≤ f`. -/
def digitCountGo : Nat → Nat → Nat
  | 0, _ => 1
  | fuel + 1, n => if n < 10 then 1 else digitCountGo fuel (n / 10) + 1

/-- Model: `len(str(n))` for a natural number `n`. -/
def digitCount (n : Nat) : Nat :=
  digitCountGo n n

/-- Model: `max(nums)` of Python over a list of naturals (`0` on the empty list). -/
def maxNatList (nums : List Nat) : Nat :=
  nums.foldl Nat.max 0

/-- Model: `determine_episode_width(episode_numbers)`: `2` for an empty collection,
otherwise `max(2, len(str(max(nums))))`. -/
def determine_episode_width (nums : List Nat) : Nat :=
  if nums.isEmpty then 2 else max 2 (digitCount (maxNatList nums))

/-!  ## Text normalizer and stem cleaner -/

/-- One pass of `re.sub(r"\s+", " ", text)`: every maximal whitespace run
becomes a single `' '`.  The flag records whether the previous character was
whitespace (i.e. whether we are inside a run). -/
def collapseGo : Bool → List Char → List Char
  | _, [] => []
  | prevSp, c :: rest =>
    if pySpace c then
      if prevSp then collapseGo true rest else ' ' :: collapseGo true rest
    else c :: collapseGo false rest

/-- Model: `str.strip()` restricted to the characters produced here (after the
collapse every whitespace character is `' '`; we still strip the full ASCII
whitespace class, as Python does). -/
def pyStrip (l : List Char) : List Char :=
  ((l.dropWhile pySpace).reverse.dropWhile pySpace).reverse

/-- Model: `normalize_spaces(text)`: `re.sub(r"\s+", " ", text).strip()`. -/
def normalize_spaces (s : List Char) : List Char :=
  pyStrip (collapseGo false s)

/-- Model: `"AnimePahe"` (`_ANIMEPAHE_PREFIX`). -/
def sitePrefixChars : List Char := "AnimePahe".data

/-- The separator class `[_\s-]` that may follow the site tag. -/
def sepChar (c : Char) : Bool :=
  c == '_' || c == '-' || pySpace c

/-- Model: `re.sub(rf"^AnimePahe[_\s-]*", "", stem)`: drop the leading site tag and
any run of separators immediately after it; a stem that does not start with
the tag is unchanged. -/
def dropSiteTag (s : List Char) : List Char :=
  if listPrefixEq sitePrefixChars s then
    (s.drop sitePrefixChars.length).dropWhile sepChar
  else s

/-- The fixed `_QUALITY_TOKENS` tuple. -/
def qualityTokens : List (List Char) :=
  ["BD".data, "WEB".data, "DVD".data, "BluRay".data, "HDRip".data, "HEVC".data,
   "x264".data, "x265".data, "10bit".data, "8bit".data, "1080p".data, "720p".data,
   "480p".data, "540p".data, "360p".data]

/-- Case-insensitive match of `tok` at the head of `l`, followed by a `\b`
word boundary (next character absent or not a word character). -/
def matchTokenCI (tok l : List Char) : Bool :=
  lowerList (l.take tok.length) == lowerList tok &&
    (tok.length ≤ l.length) &&
    (match l.drop tok.length with
     | [] => true
     | c :: _ => !pyWord c)

/-- The lookahead `(?=\s+(?:BD|WEB|...)\b)` (case-insensitive). -/
def qualityLookahead (l : List Char) : Bool :=
  !(l.takeWhile pySpace).isEmpty &&
    qualityTokens.any (fun tok => matchTokenCI tok (l.dropWhile pySpace))

/-- Greedy `\d{1,k}` at the head of `l` followed by the quality lookahead:
try the largest admissible digit count first (regex greediness), return the
number of digits consumed. -/
def tryDigits : Nat → List Char → Option Nat
  | 0, _ => none
  | k + 1, l =>
    if (l.take (k + 1)).all pyDigit ∧ (l.take (k + 1)).length == k + 1
        ∧ qualityLookahead (l.drop (k + 1)) then some (k + 1)
    else tryDigits k l

/-- Model: `finditer` of `(?P<prefix>.*?)(?P<ep>\d{1,4})(?=\s+(?:QT)\b)`: scan left
to right; at each offset try (greedily) a 1–4 digit run followed by the
lookahead; on a match record the end position of the digit run and resume
scanning there (matches do not overlap).  `fuel` bounds the scan and is
instantiated with the length of the list. -/
def qMatchEnds (fuel : Nat) (l : List Char) (pos : Nat) : List Nat :=
  match fuel with
  | 0 => []
  | fuel + 1 =>
    match l with
    | [] => []
    | _ :: rest =>
      match tryDigits 4 l with
      | some k => (pos + k) :: qMatchEnds fuel (l.drop k) (pos + k)
      | none => qMatchEnds fuel rest (pos + 1)

/-- End position of `re.search(r"(\d+)(?!.*\d)", cleaned)` (the last maximal
digit run): one past the last digit character of the string, if any. -/
def lastNumEnd (l : List Char) : Option Nat :=
  match l.reverse.findIdx? pyDigit with
  | some j => some (l.length - j)
  | none => none

/-- Case-insensitive `\bEng\s+Dub\b` match at the head of `l`, given the
original character immediately before `l` (for the left word boundary).
Returns the matched length. -/
def matchEngDub (prev : Option Char) (l : List Char) : Option Nat :=
  let leftBoundary := match prev with
    | none => true
    | some c => !pyWord c
  if leftBoundary && lowerList (l.take 3) == "eng".data && l.length ≥ 3 then
    let afterEng := l.drop 3
    let ws := afterEng.takeWhile pySpace
    let afterWs := afterEng.dropWhile pySpace
    if !ws.isEmpty && lowerList (afterWs.take 3) == "dub".data && afterWs.length ≥ 3
        && (match afterWs.drop 3 with
            | [] => true
            | c :: _ => !pyWord c) then
      some (3 + ws.length + 3)
    else none
  else none

/-- Model: `re.sub(r"\bEng\s+Dub\b", "(Eng)", cleaned, flags=re.IGNORECASE)`:
left-to-right non-overlapping replacement; scanning resumes after a match,
with boundaries judged against the original characters.  The matched text
always ends in a word character (`b`/`B`), so recording `prev := 'b'` after
a match is boundary-equivalent.  `fuel` bounds the scan and is instantiated
with the length of the list. -/
def replaceEngDubGo (fuel : Nat) (prev : Option Char) (l : List Char) : List Char :=
  match fuel with
  | 0 => l
  | fuel + 1 =>
    match l with
    | [] => []
    | c :: rest =>
      match matchEngDub prev l with
      | some m => "(Eng)".data ++ replaceEngDubGo fuel (some 'b') (l.drop m)
      | none => c :: replaceEngDubGo fuel (some c) rest

/-- The `Eng Dub -> (Eng)` normalisation step. -/
def replaceEngDub (l : List Char) : List Char :=
  replaceEngDubGo l.length none l

/-- The cleaning pipeline before truncation: drop the site tag, underscores
to spaces, normalize whitespace, `Eng Dub -> (Eng)`, re-normalize
(lines 127–135). -/
def cleanedCore (stem : List Char) : List Char :=
  let c1 := dropSiteTag stem
  let c2 := c1.map (fun c => if c == '_' then ' ' else c)
  let c3 := normalize_spaces c2
  normalize_spaces (replaceEngDub c3)

/-- Model: `clean_animepahe_stem(stem)`: drop the site tag, underscores to spaces,
normalize whitespace, `Eng Dub -> (Eng)`, then truncate after the episode
number (rightmost 1–4 digit number followed by a quality token, else the
last digit run, else leave unchanged). -/
def clean_animepahe_stem (stem : List Char) : List Char :=
  let c4 := cleanedCore stem
  match (qMatchEnds c4.length c4 0).getLast? with
  | some e => pyStrip (c4.take e)
  | none =>
    match lastNumEnd c4 with
    | some e => pyStrip (c4.take e)
    | none => c4

/-!  ## Scanner-facing name handling (`pathlib` `stem` / `suffix`) -/

/-- Index of the first `'.'` in a list, if any. -/
def firstDotIdx : List Char → Option Nat
  | [] => none
  | c :: rest => if c = '.' then some 0 else (firstDotIdx rest).map (· + 1)

/-- Index of the last `'.'` in a name (`str.rfind('.')` when present). -/
def lastDotIdx (name : List Char) : Option Nat :=
  match firstDotIdx name.reverse with
  | some j => some (name.length - 1 - j)
  | none => none

/-- Model: `pathlib` `suffix` of a file name: `name[i:]` for the last dot index `i`
when `0 < i < len(name) - 1`, else `""`. -/
def suffixOf (name : List Char) : List Char :=
  match lastDotIdx name with
  | some i => if 0 < i ∧ i < name.length - 1 then name.drop i else []
  | none => []

/-- Model: `pathlib` `stem` of a file name: the name without its `suffix`. -/
def stemOf (name : List Char) : List Char :=
  match lastDotIdx name with
  | some i => if 0 < i ∧ i < name.length - 1 then name.take i else name
  | none => name

/-- The `_VIDEO_EXTENSIONS` set. -/
def videoExtensions : List (List Char) :=
  [".avi".data, ".m4v".data, ".mkv".data, ".mov".data, ".mp4".data,
   ".ts".data, ".webm".data, ".wmv".data]

/-- The scanner keeps a file iff its name is not hidden (no leading `'.'`)
and its lower-cased suffix is a recognised video extension
(`iter_video_files_by_directory`, lines 252–258). -/
def scan_keep (name : List Char) : Bool :=
  !listPrefixEq ['.'] name && videoExtensions.any (fun e => e == lowerList (suffixOf name))

/-- The files of one directory group that the scanner reports. -/
def scan_filter (files : List (List Char)) : List (List Char) :=
  files.filter scan_keep

/-!  ## Rename planner, per directory group (`build_rename_ops`, lines 274–294)

Planner-level rename operations work on bare file names; the planner only
ever maps a file to a destination in the same directory. -/

/-- A planned rename of one file name (source and destination name). -/
structure NameOp where
  src : List Char
  dst : List Char
deriving DecidableEq

/-- The candidate stem of a file: cleaned when it starts with the site tag,
verbatim otherwise (lines 278–281). -/
def candidate_stem (stem : List Char) : List Char :=
  if listPrefixEq sitePrefixChars stem then clean_animepahe_stem stem else stem

/-- The episode numbers the planner extracts from one group
(`ep for _, _, ep in planned if ep is not None`). -/
def planned_eps (files : List (List Char)) : List Nat :=
  files.filterMap (fun n => extract_trailing_int (candidate_stem (stemOf n)))

/-- The shared zero-padding width of one group (line 285). -/
def group_width (files : List (List Char)) : Nat :=
  determine_episode_width (planned_eps files)

/-- The new stem of one file at group width `w` (lines 287–290). -/
def new_stem (w : Nat) (stem : List Char) : List Char :=
  let c := candidate_stem stem
  match extract_trailing_int c with
  | some _ => replace_trailing_int_with_zfill c w
  | none => c

/-- The planned destination name `f"{new_stem}{src.suffix}"` (line 292). -/
def new_name (w : Nat) (name : List Char) : List Char :=
  new_stem w (stemOf name) ++ suffixOf name

/-- The rename operations of one directory group: one op per file whose
destination name differs from its source name (lines 287–294). -/
def build_rename_ops_group (files : List (List Char)) : List NameOp :=
  let w := group_width files
  files.filterMap (fun n =>
    let d := new_name w n
    if d = n then none else some ⟨n, d⟩)

/-- The names present in the directory after the group's operations are
executed successfully: every source is now its destination, files without
an operation are untouched. -/
def executed_group (files : List (List Char)) : List (List Char) :=
  files.map (fun n => new_name (group_width files) n)

/-!  ## Rename executor (`apply_rename_ops`, lines 322–362)

The filesystem is a finite-support map from paths to contents, modelled as
a function `α → Option β`; paths are kept abstract (the executor only ever
compares them for equality).  `Path.rename` is modelled with POSIX
semantics: the destination is silently overwritten when it exists. -/

section Executor

variable {α β : Type} [DecidableEq α]

/-- A filesystem: each path maps to the content stored there, if any. -/
def Fs (α β : Type) := α → Option β

/-- A rename operation over abstract paths (the `RenameOp` dataclass). -/
structure ROp (α : Type) where
  src : α
  dst : α

/-- Model: `src.rename(dst)`: the destination now holds what the source held, the
source is gone, everything else is untouched (POSIX overwrite). -/
def fsRename (fs : Fs α β) (src dst : α) : Fs α β :=
  fun p => if p = dst then fs src else if p = src then none else fs p

/-- The executor's set of batch source paths (`src_set`, line 339). -/
def srcList (ops : List (ROp α)) : List α :=
  ops.map ROp.src

/-- Errors raised by the planner/executor (`RuntimeError` for destination
collisions in validation, `FileExistsError` in the executor pre-check). -/
inductive RenameError
  | collision
  | destinationExists
deriving DecidableEq

/-- The two-phase split (lines 347–356): an op whose destination is also a
batch source first goes to its temporary name, the rest rename directly.
The input pairs every op with the temporary name generated for it
(modelling `uuid4`; only chained ops consume theirs, and callers supply at
least one temporary name per op).  Returns `(temp_ops, final_ops)`, both
in batch order. -/
def buildPhases (srcs : List α) : List (ROp α × α) → List (α × α) × List (α × α)
  | [] => ([], [])
  | (op, t) :: rest =>
    let r := buildPhases srcs rest
    if op.dst ∈ srcs then ((op.src, t) :: r.1, (t, op.dst) :: r.2)
    else (r.1, (op.src, op.dst) :: r.2)

/-- Model: `apply_rename_ops` in execute mode: fail fast with `FileExistsError`
when some planned destination exists outside the batch's sources (lines
342–344, before any rename); otherwise perform all staging renames, then
all final renames (lines 358–362).  The returned filesystem is the input
one when an error is reported. -/
def apply_rename_ops (fs : Fs α β) (ops : List (ROp α)) (temps : List α) :
    Fs α β × Option RenameError :=
  if ∃ op ∈ ops, (fs op.dst).isSome ∧ op.dst ∉ srcList ops then
    (fs, some .destinationExists)
  else
    let ph := buildPhases (srcList ops) (ops.zip temps)
    ((ph.1 ++ ph.2).foldl (fun g pr => fsRename g pr.1 pr.2) fs, none)

/-- Association-list lookup modelling the `seen` dictionary (most recent
entry first). -/
def lookupDst : List (α × α) → α → Option α
  | [], _ => none
  | (d, s) :: rest, x => if x = d then some s else lookupDst rest x

/-- The dictionary loop of `_validate_no_destination_collisions` (lines
300–310): `seen` maps a destination to the source last recorded for it
(new entries are consed in front, lookup takes the most recent).  Returns
`true` when the `RuntimeError` is raised. -/
def validateGo (seen : List (α × α)) : List (ROp α) → Bool
  | [] => false
  | op :: rest =>
    match lookupDst seen op.dst with
    | some s => if s ≠ op.src then true else validateGo ((op.dst, op.src) :: seen) rest
    | none => validateGo ((op.dst, op.src) :: seen) rest

/-- Model: `_validate_no_destination_collisions(ops)` raises. -/
def validateOps (ops : List (ROp α)) : Bool :=
  validateGo [] ops

/-- Two distinct sources mapped to one destination somewhere in the list. -/
def hasCollision (ops : List (ROp α)) : Prop :=
  ∃ o1 ∈ ops, ∃ o2 ∈ ops, o1.dst = o2.dst ∧ o1.src ≠ o2.src

instance (ops : List (ROp α)) : Decidable (hasCollision ops) := by
  unfold hasCollision; infer_instance

/-- The plan/execute pipeline at the level where the operation list is
already built: `build_rename_ops` validates the complete list (line 296)
before `rename_files_recursively` hands it to the executor (lines
374–375), so a collision aborts with the filesystem untouched. -/
def rename_files_recursively (fs : Fs α β) (ops : List (ROp α)) (temps : List α) :
    Fs α β × Option RenameError :=
  if validateOps ops then (fs, some .collision) else apply_rename_ops fs ops temps

end Executor

/-!  ## Directory traversal and ignore tags (lines 213–261) -/

/-- A directory tree: a name, the plain files directly inside, and the
subdirectories. -/
inductive DirTree where
  | node : List Char → List (List Char) → List DirTree → DirTree

/-- The name component of a directory. -/
def DirTree.dname : DirTree → List Char
  | .node n _ _ => n

/-- Model: `should_ignore_directory(path, tags)`: some ignore tag occurs as a
substring of some component of the directory's full path. -/
def should_ignore_directory (parts : List (List Char)) (tags : List (List Char)) : Bool :=
  if tags.isEmpty then false
  else parts.any (fun part => tags.any (fun tag => containsSub tag part))

mutual

/-- Model: `os.walk` combined with the body of `iter_video_files_by_directory`:
visit a directory (full path = `pp ++ [name]`), prune subdirectories whose
own name contains an ignore tag, skip the yield when the full path is
ignored, and report the directory with its kept video files when there are
any.  Children are visited even when the directory itself was skipped,
exactly as `continue` behaves inside the `os.walk` loop. -/
def iter_video_files_by_directory (tags : List (List Char)) (pp : List (List Char)) :
    DirTree → List (List (List Char) × List (List Char))
  | .node name files subs =>
    let myParts := pp ++ [name]
    let vids := scan_filter files
    (if should_ignore_directory myParts tags || vids.isEmpty then []
     else [(myParts, vids)]) ++ iterForest tags myParts subs

/-- The walk over a pruned list of sibling subdirectories. -/
def iterForest (tags : List (List Char)) (pp : List (List Char)) :
    List DirTree → List (List (List Char) × List (List Char))
  | [] => []
  | t :: ts =>
    (if tags.any (fun tag => containsSub tag t.dname) then []
     else iter_video_files_by_directory tags pp t) ++ iterForest tags pp ts

end

/-!  ## Spec-side definitions

Used only to state claims in the spec's own vocabulary and compare them
against the source functions. -/

/-- Modelled from the spec's wording: "the string's last non-whitespace
token" — the final maximal whitespace-delimited chunk of the string. -/
def specLastToken (s : List Char) : List Char :=
  ((s.reverse.dropWhile pySpace).takeWhile (fun c => !pySpace c)).reverse

/-- Modelled from the spec's wording: a token is "entirely numeric". -/
def specAllDigits (l : List Char) : Bool :=
  !l.isEmpty && l.all pyDigit

/-- The string does not end in a digit (used to describe the prefix left of
a trailing digit run). -/
def noDigitEnd (l : List Char) : Bool :=
  match l.getLast? with
  | some c => !pyDigit c
  | none => true

/-!  ## Concrete instances used by the theorems below -/

/-- A filesystem with files `0` (content `10`) and `1` (content `11`). -/
def chainFs : Fs Nat Nat :=
  fun p => if p = 0 then some 10 else if p = 1 then some 11 else none

/-- The chained batch `0 → 1`, `1 → 2` (the spec's `A→B, B→C`). -/
def chainOps : List (ROp Nat) := [⟨0, 1⟩, ⟨1, 2⟩]

/-- Fresh temporary names for `chainOps` (distinct from every real path). -/
def chainTemps : List Nat := [5, 6]

/-- A filesystem with sources `0`, `1` and an unrelated existing file `3`. -/
def conflictFs : Fs Nat Nat :=
  fun p => if p = 0 then some 20 else if p = 1 then some 21
    else if p = 3 then some 23 else none

/-- A batch whose second operation targets the unrelated existing `3`. -/
def conflictOps : List (ROp Nat) := [⟨0, 9⟩, ⟨1, 3⟩]

/-- A batch in which two distinct sources collide on destination `7`. -/
def collisionOps : List (ROp Nat) := [⟨0, 7⟩, ⟨0, 7⟩, ⟨1, 7⟩]

/-- A directory whose files plan to width 3. -/
def demoWidthFiles : List (List Char) := ["Show 1.mp4".data, "Show 100.mp4".data]

/-- A directory group on which plan–execute–plan is observed. -/
def demoGroup : List (List Char) := ["Show 1.mp4".data, "Show 10.mp4".data]

/-- The stem whose cleaned form still starts with the site tag. -/
def doubleTagStem : List Char := "AnimePahe AnimePahe 5".data

/-- A directory holding one file whose cleaned-and-padded stem still starts
with the site tag. -/
def doubleTagFiles : List (List Char) := ["AnimePahe_AnimePahe_Foo_5.mp4".data]

/-- The literal scenario stem of the spec. -/
def dragonStem : List Char :=
  "AnimePahe_Dragon_Ball_Z_Movie_01_-_Ora_no_Gohan_wo_Kaese_Eng_Dub_-_01_BD_1080p_a-S".data

/-- A directory tree with one kept and one ignore-tagged subdirectory. -/
def demoTree : DirTree :=
  .node "root".data []
    [.node "keep".data ["Show 1.mp4".data] [],
     .node "[skip]".data ["Show 1.mp4".data] []]

/-!  ## Sanity checks (concrete evaluations of the embedded functions) -/

example : normalize_spaces "  a   b ".data = "a b".data := by decide
example : clean_animepahe_stem
    "AnimePahe_Shigatsu_wa_Kimi_no_Uso_-_Moments_-_01_BD_1080p_Asakura".data =
    "Shigatsu wa Kimi no Uso - Moments - 01".data := by decide
example : clean_animepahe_stem
    "AnimePahe_Shigatsu_wa_Kimi_no_Uso_-_01_BD_1080p_SumiSora-CASO".data =
    "Shigatsu wa Kimi no Uso - 01".data := by decide
example : clean_animepahe_stem
    "AnimePahe_Dragon_Ball_Z_Movie_01_-_Ora_no_Gohan_wo_Kaese_Eng_Dub_-_01_BD_1080p_a-S".data =
    "Dragon Ball Z Movie 01 - Ora no Gohan wo Kaese (Eng) - 01".data := by decide
example : clean_animepahe_stem "AnimePahe AnimePahe 5".data = "AnimePahe 5".data := by decide
example : clean_animepahe_stem "AnimePahe 5".data = "5".data := by decide
example : clean_animepahe_stem "Show 01 BD foo 02 BD".data = "Show 01 BD foo 02".data := by decide
example : clean_animepahe_stem "Show 01 BD foo 02".data = "Show 01".data := by decide
example : clean_animepahe_stem "12345 BD x".data = "12345".data := by decide
example : replace_trailing_int_with_zfill "abc19".data 4 = "abc0019".data := by decide
example : scan_keep "Show 1.mp4".data = true := by decide
example : scan_keep "Show 1.MKV".data = true := by decide
example : scan_keep ".hidden.mp4".data = false := by decide
example : scan_keep "notes.txt".data = false := by decide
example : stemOf "a.b.mp4".data = "a.b".data := by decide
example : suffixOf "a.b.mp4".data = ".mp4".data := by decide
example : suffixOf ".mp4".data = [] := by decide
example : stemOf ".mp4".data = ".mp4".data := by decide
example : build_rename_ops_group ["Show 1.mp4".data, "Show 10.mp4".data] =
    [⟨"Show 1.mp4".data, "Show 01.mp4".data⟩] := by decide
example : executed_group ["Show 1.mp4".data, "Show 10.mp4".data] =
    ["Show 01.mp4".data, "Show 10.mp4".data] := by decide
example : build_rename_ops_group (scan_filter (executed_group
    ["Show 1.mp4".data, "Show 10.mp4".data])) = [] := by decide
example : build_rename_ops_group (scan_filter (executed_group
    ["AnimePahe_AnimePahe_Foo_5.mp4".data])) ≠ [] := by decide
example :
    iter_video_files_by_directory ["[skip]".data] []
      (.node "root".data []
        [.node "keep".data ["Show 1.mp4".data] [],
         .node "[skip]".data ["Show 1.mp4".data] []]) =
    [(["root".data, "keep".data], ["Show 1.mp4".data])] := by decide
example : extract_trailing_int "Show Name 019".data = some 19 := by decide
example : extract_trailing_int "019. The Tournament Begins".data = none := by decide
example : extract_trailing_int "abc19".data = some 19 := by decide
example : specLastToken "abc19".data = "abc19".data := by decide
example : specLastToken "019. The Tournament Begins".data = "Begins".data := by decide
example : replace_trailing_int_with_zfill "Ameku M_D__ Doctor Detective 1".data 2 =
    "Ameku M_D__ Doctor Detective 01".data := by decide
example : replace_trailing_int_with_zfill "Episode 019".data 2 = "Episode 019".data := by decide
example : determine_episode_width [1, 10] = 2 := by decide
example : determine_episode_width [100] = 3 := by decide
example : determine_episode_width [] = 2 := by decide

/-!  # Theorems -/

/-!  ## Validator characterisation (helper lemmas for the collision claim) -/

theorem lookupDst_cons {α : Type} [DecidableEq α] (d s x : α) (seen : List (α × α)) :
    lookupDst ((d, s) :: seen) x = if x = d then some s else lookupDst seen x := rfl

theorem validateGo_cons {α : Type} [DecidableEq α] (seen : List (α × α))
    (op : ROp α) (rest : List (ROp α)) :
    validateGo seen (op :: rest) =
      match lookupDst seen op.dst with
      | some s => if s ≠ op.src then true else validateGo ((op.dst, op.src) :: seen) rest
      | none => validateGo ((op.dst, op.src) :: seen) rest := rfl

theorem hasCollision_def {α : Type} (ops : List (ROp α)) :
    hasCollision ops ↔ ∃ o1 ∈ ops, ∃ o2 ∈ ops, o1.dst = o2.dst ∧ o1.src ≠ o2.src :=
  Iff.rfl

theorem validateGo_cons_some {α : Type} [DecidableEq α] (seen : List (α × α))
    (op : ROp α) (rest : List (ROp α)) (s : α) (hl : lookupDst seen op.dst = some s) :
    validateGo seen (op :: rest) =
      if s ≠ op.src then true else validateGo ((op.dst, op.src) :: seen) rest := by
  rw [validateGo_cons, hl]

theorem validateGo_cons_none {α : Type} [DecidableEq α] (seen : List (α × α))
    (op : ROp α) (rest : List (ROp α)) (hl : lookupDst seen op.dst = none) :
    validateGo seen (op :: rest) = validateGo ((op.dst, op.src) :: seen) rest := by
  rw [validateGo_cons, hl]

theorem validateGo_true_cases {α : Type} [DecidableEq α] :
    ∀ (ops : List (ROp α)) (seen : List (α × α)), validateGo seen ops = true →
      hasCollision ops ∨ ∃ o ∈ ops, ∃ s, lookupDst seen o.dst = some s ∧ s ≠ o.src := by
  intro ops
  induction ops with
  | nil => intro seen h; simp [validateOps, validateGo] at h
  | cons op rest ih =>
    intro seen h
    have extend : hasCollision rest → hasCollision (op :: rest) := by
      rintro ⟨o1, h1, o2, h2, hd, hs⟩
      exact ⟨o1, List.mem_cons_of_mem _ h1, o2, List.mem_cons_of_mem _ h2, hd, hs⟩
    have push : validateGo ((op.dst, op.src) :: seen) rest = true →
        hasCollision (op :: rest) ∨
          ∃ o ∈ op :: rest, ∃ s, lookupDst seen o.dst = some s ∧ s ≠ o.src := by
      intro h'
      rcases ih _ h' with hc | ⟨o, ho, s', hs', hne⟩
      · exact Or.inl (extend hc)
      · rw [lookupDst_cons] at hs'
        by_cases hd : o.dst = op.dst
        · rw [if_pos hd] at hs'
          have hsv : op.src = s' := by injection hs'
          refine Or.inl ⟨op, List.mem_cons_self _ _, o, List.mem_cons_of_mem _ ho, hd.symm, ?_⟩
          intro hsrc
          exact hne (hsv.symm.trans hsrc)
        · rw [if_neg hd] at hs'
          exact Or.inr ⟨o, List.mem_cons_of_mem _ ho, s', hs', hne⟩
    cases hl : lookupDst seen op.dst with
    | some s =>
      rw [validateGo_cons_some seen op rest s hl] at h
      by_cases hs : s = op.src
      · rw [if_neg (by simp [hs])] at h
        exact push h
      · exact Or.inr ⟨op, List.mem_cons_self _ _, s, hl, hs⟩
    | none =>
      rw [validateGo_cons_none seen op rest hl] at h
      exact push h

theorem validateGo_false_inv {α : Type} [DecidableEq α] :
    ∀ (ops : List (ROp α)) (seen : List (α × α)), validateGo seen ops = false →
      (∀ o ∈ ops, ∀ s, lookupDst seen o.dst = some s → s = o.src) ∧
      (∀ o1 ∈ ops, ∀ o2 ∈ ops, o1.dst = o2.dst → o1.src = o2.src) := by
  intro ops
  induction ops with
  | nil =>
    intro seen _
    constructor
    · intro o ho; cases ho
    · intro o1 h1; cases h1
  | cons op rest ih =>
    intro seen h
    have main : validateGo ((op.dst, op.src) :: seen) rest = false →
        (lookupDst seen op.dst = none ∨ lookupDst seen op.dst = some op.src) →
        (∀ o ∈ op :: rest, ∀ s, lookupDst seen o.dst = some s → s = o.src) ∧
        (∀ o1 ∈ op :: rest, ∀ o2 ∈ op :: rest, o1.dst = o2.dst → o1.src = o2.src) := by
      intro h' hl
      obtain ⟨ha, hb⟩ := ih _ h'
      have hseen : ∀ o ∈ rest, o.dst = op.dst → op.src = o.src := by
        intro o ho hd
        refine ha o ho op.src ?_
        rw [lookupDst_cons, if_pos hd]
      have hother : ∀ o ∈ rest, ¬ o.dst = op.dst →
          ∀ s, lookupDst seen o.dst = some s → s = o.src := by
        intro o ho hd s hs
        refine ha o ho s ?_
        rw [lookupDst_cons, if_neg hd, hs]
      constructor
      · intro o ho s hs
        rcases List.mem_cons.mp ho with rfl | ho
        · rcases hl with hl | hl
          · rw [hl] at hs; cases hs
          · rw [hl] at hs
            exact (Option.some.inj hs).symm
        · by_cases hd : o.dst = op.dst
          · rcases hl with hl | hl
            · rw [hd, hl] at hs; cases hs
            · rw [hd, hl] at hs
              rw [← Option.some.inj hs]
              exact hseen o ho hd
          · exact hother o ho hd s hs
      · intro o1 h1 o2 h2 hd12
        rcases List.mem_cons.mp h1 with rfl | h1'
        · rcases List.mem_cons.mp h2 with rfl | h2'
          · rfl
          · exact hseen o2 h2' hd12.symm
        · rcases List.mem_cons.mp h2 with rfl | h2'
          · exact (hseen o1 h1' hd12).symm
          · exact hb o1 h1' o2 h2' hd12
    cases hl : lookupDst seen op.dst with
    | some s =>
      rw [validateGo_cons_some seen op rest s hl] at h
      by_cases hs : s = op.src
      · rw [if_neg (by simp [hs])] at h
        refine main h (Or.inr ?_)
        rw [hl, hs]
      · rw [if_pos hs] at h; cases h
    | none =>
      rw [validateGo_cons_none seen op rest hl] at h
      exact main h (Or.inl hl)

/-- The validator raises exactly on a genuine two-distinct-sources
collision. -/
theorem validateOps_iff {α : Type} [DecidableEq α] (ops : List (ROp α)) :
    validateOps ops = true ↔ hasCollision ops := by
  constructor
  · intro h
    rcases validateGo_true_cases ops [] h with hc | ⟨o, _, s, hs, _⟩
    · exact hc
    · cases hs
  · intro hc
    cases hv : validateOps ops with
    | true => rfl
    | false =>
      obtain ⟨o1, h1, o2, h2, hd, hs⟩ := hc
      exact absurd ((validateGo_false_inv ops [] hv).2 o1 h1 o2 h2 hd) hs

/-!  ## Claim C1 -/

/-- Claim C1 (code bug): the two-phase staging protocol does *not* preserve
every source's content for a chained batch.  On the collision-free batch
`0 → 1, 1 → 2` over a filesystem where `0` holds `10` and `1` holds `11`
(all pre-flight checks pass), execution reports success, yet destination
`1` (planned to receive content `10`) ends up empty and destination `2`
(planned to receive content `11`) ends up with `10`: the content of source
`1` is destroyed by the earlier final rename before the later step reads
it, contradicting the claim. -/
theorem chain_batch_destroys_content :
    (apply_rename_ops chainFs chainOps chainTemps).2 = none ∧
    (apply_rename_ops chainFs chainOps chainTemps).1 1 = none ∧
    (apply_rename_ops chainFs chainOps chainTemps).1 2 = some 10 ∧
    chainFs 0 = some 10 ∧ chainFs 1 = some 11 := by decide

/-!  ## Claim C2 -/

/-- Claim C2 (confirmed): `_validate_no_destination_collisions` raises iff
the complete operation list maps two distinct source paths to one
destination path (equal-source duplicates are fine), and a collision
aborts the plan/execute pipeline before any filesystem mutation: the
filesystem comes back unchanged. -/
theorem collision_validation_pre_flight {α β : Type} [DecidableEq α]
    (ops : List (ROp α)) :
    (validateOps ops = true ↔ hasCollision ops) ∧
    (∀ (fs : Fs α β) (temps : List α), hasCollision ops →
       rename_files_recursively fs ops temps = (fs, some .collision)) := by
  refine ⟨validateOps_iff ops, ?_⟩
  intro fs temps hc
  unfold rename_files_recursively
  rw [if_pos ((validateOps_iff ops).mpr hc)]

/-- Witness for C2 at the concrete batch `0→7, 0→7, 1→7`: the duplicate
`0→7` alone is no collision, the pair `0→7`/`1→7` is, and the pipeline
aborts with the filesystem untouched. -/
theorem collision_validation_pre_flight_witness :
    hasCollision collisionOps ∧ validateOps collisionOps = true ∧
    validateOps [ROp.mk 0 7, ROp.mk 0 7] = false ∧
    rename_files_recursively chainFs collisionOps chainTemps = (chainFs, some .collision) := by
  have h := collision_validation_pre_flight (β := Nat) collisionOps
  have hc : hasCollision collisionOps := by decide
  exact ⟨hc, h.1.mpr hc, by decide, h.2 chainFs chainTemps hc⟩

/-!  ## Claim C3 -/

/-- Claim C3 (confirmed): in execute mode, if any planned destination already
exists and is not one of the batch's own sources, the executor fails with
the destination-conflict error before performing any rename — the check is
a single pre-flight pass over the whole batch, so the filesystem is
returned unchanged no matter where in the batch the conflict sits. -/
theorem dest_conflict_aborts_whole_batch {α β : Type} [DecidableEq α]
    (fs : Fs α β) (ops : List (ROp α)) (temps : List α)
    (h : ∃ op ∈ ops, (fs op.dst).isSome ∧ op.dst ∉ srcList ops) :
    apply_rename_ops fs ops temps = (fs, some .destinationExists) := by
  unfold apply_rename_ops
  rw [if_pos h]

/-- Witness for C3: the conflict sits in the *second* operation of the
batch, and still nothing is renamed. -/
theorem dest_conflict_aborts_whole_batch_witness :
    apply_rename_ops conflictFs conflictOps [] = (conflictFs, some .destinationExists) :=
  dest_conflict_aborts_whole_batch conflictFs conflictOps [] (by decide)

/-!  ## `takeWhile` / `dropWhile` helpers -/

theorem head_dropWhile_not {α : Type} (p : α → Bool) :
    ∀ (l : List α) (c : α), (l.dropWhile p).head? = some c → p c = false := by
  intro l
  induction l with
  | nil => intro c h; cases h
  | cons a t ih =>
    intro c h
    rw [List.dropWhile_cons] at h
    by_cases hp : p a
    · rw [if_pos hp] at h; exact ih c h
    · rw [if_neg hp] at h
      have hac : a = c := Option.some.inj h
      cases hpa : p a with
      | false => exact hac ▸ hpa
      | true => exact absurd hpa hp

theorem takeWhile_dropWhile_append {α : Type} (p : α → Bool) :
    ∀ (l1 l2 : List α), (∀ c ∈ l1, p c = true) →
      (∀ c, l2.head? = some c → p c = false) →
      (l1 ++ l2).takeWhile p = l1 ∧ (l1 ++ l2).dropWhile p = l2 := by
  intro l1
  induction l1 with
  | nil =>
    intro l2 _ hl2
    cases l2 with
    | nil => exact ⟨rfl, rfl⟩
    | cons a t =>
      have ha := hl2 a rfl
      constructor
      · rw [List.nil_append, List.takeWhile_cons, ha]; rfl
      · rw [List.nil_append, List.dropWhile_cons, ha]; rfl
  | cons a t ih =>
    intro l2 h1 h2
    have hpa : p a = true := h1 a (List.mem_cons_self _ _)
    have iht := ih l2 (fun c hc => h1 c (List.mem_cons_of_mem _ hc)) h2
    constructor
    · rw [List.cons_append, List.takeWhile_cons, hpa, if_pos rfl, iht.1]
    · rw [List.cons_append, List.dropWhile_cons, hpa, if_pos rfl, iht.2]

theorem pyDigit_not_pySpace (c : Char) (h : pyDigit c = true) : pySpace c = false := by
  cases hs : pySpace c with
  | false => rfl
  | true =>
    exfalso
    unfold pySpace at hs
    simp only [Bool.or_eq_true, beq_iff_eq] at hs
    rcases hs with ((((h1 | h2) | h3) | h4) | h5) | h6 <;> subst_vars <;>
      exact absurd h (by decide)

theorem natOfDigits_replicate_zero (k : Nat) (ds : List Char) :
    natOfDigits (List.replicate k '0' ++ ds) = natOfDigits ds := by
  unfold natOfDigits
  rw [List.foldl_append]
  have hz : ∀ m, (List.replicate m '0').foldl (fun a c => a * 10 + digitVal c) 0 = 0 := by
    intro m
    induction m with
    | zero => rfl
    | succ m ihm =>
      rw [List.replicate_succ]
      have : (0 : Nat) * 10 + digitVal '0' = 0 := by decide
      simpa [this] using ihm
  rw [hz]

/-!  ## Characterising the trailing digit run -/

/-- Model: `extract_trailing_int` succeeds exactly on strings of the shape
`pre ++ ds ++ ws` with `ds` a nonempty digit run not preceded by another
digit and `ws` pure whitespace, and then returns the value of `ds`. -/
theorem extract_eq_some_iff (s : List Char) (n : Nat) :
    extract_trailing_int s = some n ↔
      ∃ pre ds ws : List Char, s = pre ++ ds ++ ws ∧ ds ≠ [] ∧
        (∀ c ∈ ds, pyDigit c = true) ∧ (∀ c ∈ ws, pySpace c = true) ∧
        noDigitEnd pre = true ∧ n = natOfDigits ds := by
  constructor
  · intro h
    by_cases he : ((s.reverse.dropWhile pySpace).takeWhile pyDigit).isEmpty
    · simp [extract_trailing_int, he] at h
    · have hn : natOfDigits ((s.reverse.dropWhile pySpace).takeWhile pyDigit).reverse = n := by
        simpa [extract_trailing_int, he] using h
      refine ⟨((s.reverse.dropWhile pySpace).dropWhile pyDigit).reverse,
        ((s.reverse.dropWhile pySpace).takeWhile pyDigit).reverse,
        (s.reverse.takeWhile pySpace).reverse, ?_, ?_, ?_, ?_, ?_, hn.symm⟩
      · calc s = s.reverse.reverse := (List.reverse_reverse s).symm
          _ = (s.reverse.takeWhile pySpace ++
                ((s.reverse.dropWhile pySpace).takeWhile pyDigit ++
                  (s.reverse.dropWhile pySpace).dropWhile pyDigit)).reverse := by
                rw [List.takeWhile_append_dropWhile, List.takeWhile_append_dropWhile]
          _ = ((s.reverse.dropWhile pySpace).takeWhile pyDigit ++
                (s.reverse.dropWhile pySpace).dropWhile pyDigit).reverse ++
                (s.reverse.takeWhile pySpace).reverse := List.reverse_append _ _
          _ = ((s.reverse.dropWhile pySpace).dropWhile pyDigit).reverse ++
                ((s.reverse.dropWhile pySpace).takeWhile pyDigit).reverse ++
                (s.reverse.takeWhile pySpace).reverse := by rw [List.reverse_append]
      · intro hc
        rw [List.reverse_eq_nil_iff] at hc
        rw [hc] at he
        exact he rfl
      · intro c hc
        rw [List.mem_reverse] at hc
        exact List.mem_takeWhile_imp hc
      · intro c hc
        rw [List.mem_reverse] at hc
        exact List.mem_takeWhile_imp hc
      · unfold noDigitEnd
        rw [List.getLast?_reverse]
        cases hh : ((s.reverse.dropWhile pySpace).dropWhile pyDigit).head? with
        | none => rfl
        | some c =>
          show (!pyDigit c) = true
          rw [head_dropWhile_not pyDigit _ c hh]
          rfl
  · rintro ⟨pre, ds, ws, rfl, hne, hds, hws, hpre, rfl⟩
    have hrev : (pre ++ ds ++ ws).reverse = ws.reverse ++ (ds.reverse ++ pre.reverse) := by
      simp [List.reverse_append]
    have hdshead : ∀ c, (ds.reverse ++ pre.reverse).head? = some c → pySpace c = false := by
      intro c hc
      cases hd : ds.reverse with
      | nil => exact absurd (List.reverse_eq_nil_iff.mp hd) hne
      | cons a t =>
        rw [hd, List.cons_append] at hc
        have hac : a = c := Option.some.inj hc
        have : a ∈ ds := List.mem_reverse.mp (hd ▸ List.mem_cons_self a t)
        exact hac ▸ pyDigit_not_pySpace a (hds a this)
    have hprehead : ∀ c, pre.reverse.head? = some c → pyDigit c = false := by
      intro c hc
      rw [List.head?_reverse] at hc
      have hp : (!pyDigit c) = true := by
        unfold noDigitEnd at hpre
        rw [hc] at hpre
        exact hpre
      simpa using hp
    have hdrop := (takeWhile_dropWhile_append pySpace ws.reverse (ds.reverse ++ pre.reverse)
      (fun c hc => hws c (List.mem_reverse.mp hc)) hdshead).2
    have htake := (takeWhile_dropWhile_append pyDigit ds.reverse pre.reverse
      (fun c hc => hds c (List.mem_reverse.mp hc)) hprehead).1
    have hdsne : (ds.reverse : List Char).isEmpty = false := by
      cases hd : ds.reverse with
      | nil => exact absurd (List.reverse_eq_nil_iff.mp hd) hne
      | cons a t => rfl
    simp [extract_trailing_int, hrev, hdrop, htake, hdsne]

theorem zfill_of_width_le (ds : List Char) (w : Nat) (h : w ≤ ds.length) :
    zfill ds w = ds := by
  unfold zfill; rw [if_pos h]

theorem zfill_length (ds : List Char) (w : Nat) : (zfill ds w).length = max ds.length w := by
  unfold zfill
  by_cases h : w ≤ ds.length
  · rw [if_pos h]; omega
  · rw [if_neg h]; simp; omega

theorem zfill_ne_nil (ds : List Char) (w : Nat) (h : ds ≠ []) : zfill ds w ≠ [] := by
  intro hz
  have hlen := congrArg List.length hz
  rw [zfill_length] at hlen
  simp only [List.length_nil] at hlen
  have hd : ds.length ≠ 0 := fun h0 => h (List.length_eq_zero.mp h0)
  omega

theorem zfill_all_digit (ds : List Char) (w : Nat) (h : ∀ c ∈ ds, pyDigit c = true) :
    ∀ c ∈ zfill ds w, pyDigit c = true := by
  intro c hc
  unfold zfill at hc
  by_cases hw : w ≤ ds.length
  · rw [if_pos hw] at hc; exact h c hc
  · rw [if_neg hw] at hc
    rcases List.mem_append.mp hc with hc | hc
    · rw [List.eq_of_mem_replicate hc]; decide
    · exact h c hc

theorem natOfDigits_zfill (ds : List Char) (w : Nat) :
    natOfDigits (zfill ds w) = natOfDigits ds := by
  unfold zfill
  by_cases hw : w ≤ ds.length
  · rw [if_pos hw]
  · rw [if_neg hw]
    exact natOfDigits_replicate_zero _ _

/-- The padder rewrites exactly the trailing digit run, reproducing the
prefix and the trailing whitespace verbatim. -/
theorem pad_decomp (pre ds ws : List Char) (w : Nat)
    (hne : ds ≠ []) (hds : ∀ c ∈ ds, pyDigit c = true) (hws : ∀ c ∈ ws, pySpace c = true)
    (hpre : noDigitEnd pre = true) :
    replace_trailing_int_with_zfill (pre ++ ds ++ ws) w = pre ++ zfill ds w ++ ws := by
  have hrev : (pre ++ ds ++ ws).reverse = ws.reverse ++ (ds.reverse ++ pre.reverse) := by
    simp [List.reverse_append]
  have hdshead : ∀ c, (ds.reverse ++ pre.reverse).head? = some c → pySpace c = false := by
    intro c hc
    cases hd : ds.reverse with
    | nil => exact absurd (List.reverse_eq_nil_iff.mp hd) hne
    | cons a t =>
      rw [hd, List.cons_append] at hc
      have hac : a = c := Option.some.inj hc
      have : a ∈ ds := List.mem_reverse.mp (hd ▸ List.mem_cons_self a t)
      exact hac ▸ pyDigit_not_pySpace a (hds a this)
  have hprehead : ∀ c, pre.reverse.head? = some c → pyDigit c = false := by
    intro c hc
    rw [List.head?_reverse] at hc
    have hp : (!pyDigit c) = true := by
      unfold noDigitEnd at hpre
      rw [hc] at hpre
      exact hpre
    simpa using hp
  have hwspair := takeWhile_dropWhile_append pySpace ws.reverse (ds.reverse ++ pre.reverse)
    (fun c hc => hws c (List.mem_reverse.mp hc)) hdshead
  have hdspair := takeWhile_dropWhile_append pyDigit ds.reverse pre.reverse
    (fun c hc => hds c (List.mem_reverse.mp hc)) hprehead
  have hdsne : (ds.reverse : List Char).isEmpty = false := by
    cases hd : ds.reverse with
    | nil => exact absurd (List.reverse_eq_nil_iff.mp hd) hne
    | cons a t => rfl
  simp [replace_trailing_int_with_zfill, hrev, hwspair.1, hwspair.2,
    hdspair.1, hdspair.2, hdsne]

/-- Padding a string with no trailing digit run is the identity. -/
theorem pad_of_extract_none (s : List Char) (w : Nat)
    (h : extract_trailing_int s = none) :
    replace_trailing_int_with_zfill s w = s := by
  by_cases he : ((s.reverse.dropWhile pySpace).takeWhile pyDigit).isEmpty
  · simp [replace_trailing_int_with_zfill, he]
  · simp [extract_trailing_int, he] at h

/-- Padding keeps the trailing number (and its value). -/
theorem extract_pad (s : List Char) (n : Nat) (w : Nat)
    (h : extract_trailing_int s = some n) :
    extract_trailing_int (replace_trailing_int_with_zfill s w) = some n := by
  obtain ⟨pre, ds, ws, rfl, hne, hds, hws, hpre, rfl⟩ := (extract_eq_some_iff _ _).mp h
  rw [pad_decomp pre ds ws w hne hds hws hpre]
  exact (extract_eq_some_iff _ _).mpr ⟨pre, zfill ds w, ws, rfl, zfill_ne_nil ds w hne,
    zfill_all_digit ds w hds, hws, hpre, (natOfDigits_zfill ds w).symm⟩

/-- Re-padding at any width not exceeding the first one is the identity. -/
theorem pad_pad (s : List Char) (n : Nat) (w w' : Nat)
    (h : extract_trailing_int s = some n) (hw : w' ≤ w) :
    replace_trailing_int_with_zfill (replace_trailing_int_with_zfill s w) w' =
      replace_trailing_int_with_zfill s w := by
  obtain ⟨pre, ds, ws, rfl, hne, hds, hws, hpre, -⟩ := (extract_eq_some_iff _ _).mp h
  rw [pad_decomp pre ds ws w hne hds hws hpre,
    pad_decomp pre (zfill ds w) ws w' (zfill_ne_nil ds w hne) (zfill_all_digit ds w hds) hws hpre,
    zfill_of_width_le _ _ (by rw [zfill_length]; omega)]

/-!  ## Claim C4 -/

/-- Claim C4 counterexample: the claim says `extract_trailing_int` "returns
nothing when the string's last non-whitespace token is not entirely
numeric".  On `"abc19"` the last whitespace-delimited token is `"abc19"`,
which is not entirely numeric, yet the function returns `19`: the regex
`(\d+)\s*$` only requires the string to *end* in digits, it does not
require the whole trailing token to be numeric. -/
theorem extract_trailing_token_claim_false :
    specAllDigits (specLastToken "abc19".data) = false ∧
    specLastToken "abc19".data = "abc19".data ∧
    extract_trailing_int "abc19".data = some 19 := by decide

/-- Claim C4 (amended): `extract_trailing_int` returns the value of the
maximal trailing digit run exactly when the string, after optional
trailing whitespace, ends in at least one digit — the run need not be
preceded by whitespace, so it need not be a whole whitespace-delimited
token; and `"019. The Tournament Begins"` still yields nothing because
that string does not end in a digit. -/
theorem extract_trailing_int_spec :
    (∀ (s : List Char) (n : Nat), extract_trailing_int s = some n ↔
       ∃ pre ds ws : List Char, s = pre ++ ds ++ ws ∧ ds ≠ [] ∧
         (∀ c ∈ ds, pyDigit c = true) ∧ (∀ c ∈ ws, pySpace c = true) ∧
         noDigitEnd pre = true ∧ n = natOfDigits ds) ∧
    extract_trailing_int "019. The Tournament Begins".data = none :=
  ⟨extract_eq_some_iff, by decide⟩

/-- Witness for C4 at `"ab 12"`: the decomposition
`"ab " ++ "12" ++ ""` satisfies every side condition, so the extractor
returns `12`. -/
theorem extract_trailing_int_spec_witness :
    extract_trailing_int "ab 12".data = some 12 :=
  (extract_trailing_int_spec.1 "ab 12".data 12).mpr
    ⟨"ab ".data, "12".data, [], by decide, by decide, by decide, by decide,
      by decide, by decide⟩

/-!  ## Claim C5 -/

/-- Claim C5 counterexample: the claim says "a string with no trailing
numeric token is returned unchanged at any requested width".  `"abc19"`
has no trailing numeric *token* (its last whitespace-delimited token is
`"abc19"`), yet at width 4 the padder rewrites it to `"abc0019"`: the
regex pads the trailing digit run even when that run is only the tail of
a larger token. -/
theorem pad_trailing_token_claim_false :
    specAllDigits (specLastToken "abc19".data) = false ∧
    replace_trailing_int_with_zfill "abc19".data 4 = "abc0019".data ∧
    replace_trailing_int_with_zfill "abc19".data 4 ≠ "abc19".data := by decide

/-- Claim C5 (amended): on a string decomposing as `pre ++ ds ++ ws` with a
(maximal) nonempty trailing digit run `ds` and trailing whitespace `ws`,
the padder rewrites only `ds` — zero-extended to at least `width`, never
truncated, value preserved, everything else verbatim — and a string whose
trailing digit run is empty (equivalently: on which the extractor fails,
which is weaker than the claim's "no trailing numeric token") is returned
unchanged at any width; in particular `"019. The Tournament Begins"` is
unchanged at every width. -/
theorem replace_trailing_int_with_zfill_spec :
    (∀ (pre ds ws : List Char) (w : Nat), ds ≠ [] →
       (∀ c ∈ ds, pyDigit c = true) → (∀ c ∈ ws, pySpace c = true) →
       noDigitEnd pre = true →
       replace_trailing_int_with_zfill (pre ++ ds ++ ws) w = pre ++ zfill ds w ++ ws ∧
       (zfill ds w).length = max ds.length w ∧
       natOfDigits (zfill ds w) = natOfDigits ds ∧
       (w ≤ ds.length → zfill ds w = ds)) ∧
    (∀ (s : List Char) (w : Nat), extract_trailing_int s = none →
       replace_trailing_int_with_zfill s w = s) ∧
    (∀ w, replace_trailing_int_with_zfill "019. The Tournament Begins".data w =
       "019. The Tournament Begins".data) := by
  refine ⟨?_, ?_, ?_⟩
  · intro pre ds ws w hne hds hws hpre
    exact ⟨pad_decomp pre ds ws w hne hds hws hpre, zfill_length ds w,
      natOfDigits_zfill ds w, zfill_of_width_le ds w⟩
  · intro s w h
    exact pad_of_extract_none s w h
  · intro w
    refine pad_of_extract_none _ w ?_
    decide

/-- Witness for C5 at `"Episode 7 "` and width 3: only the `7` is padded,
the prefix and the trailing blank survive verbatim. -/
theorem replace_trailing_int_with_zfill_spec_witness :
    replace_trailing_int_with_zfill "Episode 7 ".data 3 = "Episode 007 ".data :=
  (replace_trailing_int_with_zfill_spec.1 "Episode ".data "7".data " ".data 3
    (by decide) (by decide) (by decide) (by decide)).1.trans (by decide)

/-!  ## `foldl Nat.max` and decimal digit count -/

theorem foldl_max_init_le : ∀ (l : List Nat) (a : Nat), a ≤ l.foldl Nat.max a := by
  intro l
  induction l with
  | nil => intro a; exact Nat.le_refl a
  | cons x t ih =>
    intro a
    exact Nat.le_trans (Nat.le_max_left a x) (ih (Nat.max a x))

theorem le_foldl_max : ∀ (l : List Nat) (a x : Nat), x ∈ l → x ≤ l.foldl Nat.max a := by
  intro l
  induction l with
  | nil => intro a x hx; cases hx
  | cons y t ih =>
    intro a x hx
    rcases List.mem_cons.mp hx with rfl | hx
    · exact Nat.le_trans (Nat.le_max_right a x) (foldl_max_init_le t _)
    · exact ih _ x hx

theorem foldl_max_le : ∀ (l : List Nat) (a B : Nat), (∀ x ∈ l, x ≤ B) → a ≤ B →
    l.foldl Nat.max a ≤ B := by
  intro l
  induction l with
  | nil => intro a B _ ha; exact ha
  | cons y t ih =>
    intro a B hB ha
    refine ih _ B (fun x hx => hB x (List.mem_cons_of_mem _ hx)) ?_
    exact Nat.max_le.mpr ⟨ha, hB y (List.mem_cons_self _ _)⟩

theorem foldl_max_mem : ∀ (l : List Nat) (a : Nat),
    l.foldl Nat.max a ∈ l ∨ l.foldl Nat.max a = a := by
  intro l
  induction l with
  | nil => intro a; exact Or.inr rfl
  | cons y t ih =>
    intro a
    rcases ih (Nat.max a y) with h | h
    · exact Or.inl (List.mem_cons_of_mem _ h)
    · rw [List.foldl_cons, h]
      by_cases hay : a ≤ y
      · refine Or.inl ?_
        have hm : Nat.max a y = y := Nat.max_eq_right hay
        rw [hm]
        exact List.mem_cons_self _ _
      · refine Or.inr ?_
        have hm : Nat.max a y = a := Nat.max_eq_left (by omega)
        rw [hm]

/-- The maximum of a nonempty list is attained in it. -/
theorem maxNatList_mem (l : List Nat) (h : l ≠ []) : maxNatList l ∈ l := by
  rcases foldl_max_mem l 0 with hm | hm
  · exact hm
  · cases l with
    | nil => exact absurd rfl h
    | cons y t =>
      have hy : y ≤ maxNatList (y :: t) := le_foldl_max _ 0 y (List.mem_cons_self _ _)
      have hz : maxNatList (y :: t) = 0 := hm
      rw [hz] at hy
      have h0 : y = 0 := Nat.le_zero.mp hy
      show maxNatList (y :: t) ∈ y :: t
      rw [hz, ← h0]
      exact List.mem_cons_self _ _

theorem digitCountGo_fuel : ∀ (f1 f2 n : Nat), n ≤ f1 → n ≤ f2 →
    digitCountGo f1 n = digitCountGo f2 n := by
  intro f1
  induction f1 with
  | zero =>
    intro f2 n h1 _
    have : n = 0 := Nat.le_zero.mp h1
    subst this
    cases f2 with
    | zero => rfl
    | succ g => simp [digitCountGo]
  | succ f ih =>
    intro f2 n h1 h2
    cases f2 with
    | zero =>
      have : n = 0 := Nat.le_zero.mp h2
      subst this
      simp [digitCountGo]
    | succ g =>
      by_cases hn : n < 10
      · simp [digitCountGo, hn]
      · have hdiv : n / 10 < n := Nat.div_lt_self (by omega) (by omega)
        have e1 : digitCountGo (f + 1) n = digitCountGo f (n / 10) + 1 := by
          simp [digitCountGo, hn]
        have e2 : digitCountGo (g + 1) n = digitCountGo g (n / 10) + 1 := by
          simp [digitCountGo, hn]
        rw [e1, e2, ih g (n / 10) (by omega) (by omega)]

theorem digitCount_of_lt_ten (n : Nat) (h : n < 10) : digitCount n = 1 := by
  unfold digitCount
  cases n with
  | zero => rfl
  | succ m => simp [digitCountGo, h]

theorem digitCount_of_ten_le (n : Nat) (h : 10 ≤ n) :
    digitCount n = digitCount (n / 10) + 1 := by
  cases hn : n with
  | zero => omega
  | succ m =>
    subst hn
    have hdiv : (m + 1) / 10 < m + 1 := Nat.div_lt_self (by omega) (by omega)
    show digitCountGo (m + 1) (m + 1) = digitCountGo ((m + 1) / 10) ((m + 1) / 10) + 1
    have e1 : digitCountGo (m + 1) (m + 1) = digitCountGo m ((m + 1) / 10) + 1 := by
      simp [digitCountGo, show ¬ (m + 1 < 10) by omega]
    rw [e1, digitCountGo_fuel m ((m + 1) / 10) ((m + 1) / 10) (by omega) (Nat.le_refl _)]

theorem one_le_digitCount (n : Nat) : 1 ≤ digitCount n := by
  by_cases h : n < 10
  · rw [digitCount_of_lt_ten n h]
  · rw [digitCount_of_ten_le n (by omega)]; omega

theorem digitCount_mono : ∀ n m : Nat, m ≤ n → digitCount m ≤ digitCount n := by
  intro n
  induction n using Nat.strong_induction_on with
  | _ n ih =>
    intro m h
    by_cases hm : m < 10
    · rw [digitCount_of_lt_ten m hm]
      exact one_le_digitCount n
    · have hn : (10 : Nat) ≤ n := by omega
      rw [digitCount_of_ten_le m (by omega), digitCount_of_ten_le n hn]
      have hdiv : n / 10 < n := Nat.div_lt_self (by omega) (by omega)
      exact Nat.succ_le_succ (ih (n / 10) hdiv (m / 10) (Nat.div_le_div_right h))

/-- Model: `digitCount` really is the decimal digit count (`len(str(n))`). -/
theorem digitCount_bounds : ∀ n : Nat, n < 10 ^ digitCount n ∧
    (1 ≤ n → 10 ^ (digitCount n - 1) ≤ n) := by
  intro n
  induction n using Nat.strong_induction_on with
  | _ n ih =>
    by_cases h : n < 10
    · rw [digitCount_of_lt_ten n h]
      exact ⟨by omega, fun h1 => by simpa using h1⟩
    · have hn : (10 : Nat) ≤ n := by omega
      have hdiv : n / 10 < n := Nat.div_lt_self (by omega) (by omega)
      obtain ⟨hu, hl⟩ := ih (n / 10) hdiv
      rw [digitCount_of_ten_le n hn]
      have hone : 1 ≤ digitCount (n / 10) := one_le_digitCount _
      constructor
      · have hpow : (10 : Nat) ^ (digitCount (n / 10) + 1) =
            10 * 10 ^ digitCount (n / 10) := by ring
        have hmod : n = 10 * (n / 10) + n % 10 := (Nat.div_add_mod n 10).symm
        have hm : n % 10 < 10 := Nat.mod_lt n (by omega)
        omega
      · intro _
        have h1 : 1 ≤ n / 10 := Nat.le_div_iff_mul_le (by omega) |>.mpr (by omega)
        have hle := hl h1
        have hpow : (10 : Nat) ^ (digitCount (n / 10) + 1 - 1) =
            10 * 10 ^ (digitCount (n / 10) - 1) := by
          have : digitCount (n / 10) + 1 - 1 = (digitCount (n / 10) - 1) + 1 := by omega
          rw [this]; ring
        have hmul : 10 * (n / 10) ≤ n := by
          have := Nat.div_add_mod n 10
          omega
        calc 10 ^ (digitCount (n / 10) + 1 - 1)
            = 10 * 10 ^ (digitCount (n / 10) - 1) := hpow
          _ ≤ 10 * (n / 10) := by omega
          _ ≤ n := hmul

/-!  ## Claim C6 -/

/-- Claim C6 (confirmed): the group width is `max(2, digitCount(max of the
extracted episode numbers))` when some file yields a number, `2` when none
does, and is always at least `2` (`digitCount` is characterised as the
genuine decimal digit count by `digitCount_bounds`). -/
theorem group_width_formula (files : List (List Char)) :
    2 ≤ group_width files ∧
    (planned_eps files = [] → group_width files = 2) ∧
    (planned_eps files ≠ [] →
      group_width files = max 2 (digitCount (maxNatList (planned_eps files))) ∧
      maxNatList (planned_eps files) ∈ planned_eps files ∧
      ∀ v ∈ planned_eps files, v ≤ maxNatList (planned_eps files)) := by
  refine ⟨?_, ?_, ?_⟩
  · unfold group_width determine_episode_width
    by_cases h : (planned_eps files).isEmpty
    · rw [if_pos h]
    · rw [if_neg h]
      exact Nat.le_max_left _ _
  · intro h
    unfold group_width determine_episode_width
    rw [if_pos (List.isEmpty_iff.mpr h)]
  · intro h
    have hne : (planned_eps files).isEmpty = false := by
      cases hc : planned_eps files with
      | nil => exact absurd hc h
      | cons a t => rfl
    refine ⟨?_, maxNatList_mem _ h, fun v hv => le_foldl_max _ 0 v hv⟩
    unfold group_width determine_episode_width
    rw [hne]
    rfl

/-- Witness for C6 on a group extracting `{1, 100}`: width `3`. -/
theorem group_width_formula_witness :
    group_width demoWidthFiles =
      max 2 (digitCount (maxNatList (planned_eps demoWidthFiles))) ∧
    group_width demoWidthFiles = 3 :=
  ⟨((group_width_formula demoWidthFiles).2.2 (by decide)).1, by decide⟩

/-!  ## Stage-by-stage length bounds for the cleaner -/

theorem length_dropWhile_le_self {α : Type} (p : α → Bool) :
    ∀ l : List α, (l.dropWhile p).length ≤ l.length := by
  intro l
  induction l with
  | nil => exact Nat.le_refl _
  | cons a t ih =>
    rw [List.dropWhile_cons]
    by_cases hp : p a
    · rw [if_pos hp]
      exact Nat.le_trans ih (by simp)
    · rw [if_neg hp]

theorem takeWhile_dropWhile_length {α : Type} (p : α → Bool) (l : List α) :
    (l.takeWhile p).length + (l.dropWhile p).length = l.length := by
  rw [← List.length_append, List.takeWhile_append_dropWhile]

theorem dropSiteTag_length_le (s : List Char) : (dropSiteTag s).length ≤ s.length := by
  unfold dropSiteTag
  by_cases h : listPrefixEq sitePrefixChars s
  · rw [if_pos h]
    refine Nat.le_trans (length_dropWhile_le_self sepChar _) ?_
    rw [List.length_drop]
    omega
  · rw [if_neg h]

theorem collapseGo_length_le : ∀ (l : List Char) (b : Bool),
    (collapseGo b l).length ≤ l.length := by
  intro l
  induction l with
  | nil => intro b; exact Nat.le_refl _
  | cons c t ih =>
    intro b
    by_cases hc : pySpace c
    · cases b with
      | true =>
        have : collapseGo true (c :: t) = collapseGo true t := by
          simp [collapseGo, hc]
        rw [this]
        exact Nat.le_trans (ih true) (by simp)
      | false =>
        have : collapseGo false (c :: t) = ' ' :: collapseGo true t := by
          simp [collapseGo, hc]
        rw [this, List.length_cons, List.length_cons]
        exact Nat.succ_le_succ (ih true)
    · have : collapseGo b (c :: t) = c :: collapseGo false t := by
        simp [collapseGo, hc]
      rw [this, List.length_cons, List.length_cons]
      exact Nat.succ_le_succ (ih false)

theorem pyStrip_length_le (l : List Char) : (pyStrip l).length ≤ l.length := by
  unfold pyStrip
  rw [List.length_reverse]
  refine Nat.le_trans (length_dropWhile_le_self pySpace _) ?_
  rw [List.length_reverse]
  exact length_dropWhile_le_self pySpace l

theorem normalize_spaces_length_le (l : List Char) :
    (normalize_spaces l).length ≤ l.length :=
  Nat.le_trans (pyStrip_length_le _) (collapseGo_length_le l false)

theorem matchEngDub_bounds (prev : Option Char) (l : List Char) (m : Nat)
    (h : matchEngDub prev l = some m) : 6 ≤ m ∧ m ≤ l.length := by
  simp only [matchEngDub] at h
  split_ifs at h with h1 h2
  · have hm : 3 + ((l.drop 3).takeWhile pySpace).length + 3 = m := Option.some.inj h
    simp only [Bool.and_eq_true, decide_eq_true_eq] at h1 h2
    have hsum := takeWhile_dropWhile_length pySpace (l.drop 3)
    rw [List.length_drop] at hsum
    have h3 : 3 ≤ l.length := h1.2
    have haw : 3 ≤ ((l.drop 3).dropWhile pySpace).length := h2.1.2
    omega

theorem replaceEngDubGo_length_le : ∀ (fuel : Nat) (prev : Option Char) (l : List Char),
    (replaceEngDubGo fuel prev l).length ≤ l.length := by
  intro fuel
  induction fuel with
  | zero => intro prev l; exact Nat.le_refl _
  | succ f ih =>
    intro prev l
    cases l with
    | nil => exact Nat.le_refl _
    | cons c rest =>
      cases hm : matchEngDub prev (c :: rest) with
      | some m =>
        obtain ⟨hm6, hmlen⟩ := matchEngDub_bounds prev (c :: rest) m hm
        have heq : replaceEngDubGo (f + 1) prev (c :: rest) =
            "(Eng)".data ++ replaceEngDubGo f (some 'b') ((c :: rest).drop m) := by
          simp [replaceEngDubGo, hm]
        rw [heq, List.length_append]
        have hrec := ih (some 'b') ((c :: rest).drop m)
        rw [List.length_drop] at hrec
        have h5 : ("(Eng)".data).length = 5 := rfl
        omega
      | none =>
        have heq : replaceEngDubGo (f + 1) prev (c :: rest) =
            c :: replaceEngDubGo f (some c) rest := by
          simp [replaceEngDubGo, hm]
        rw [heq, List.length_cons, List.length_cons]
        exact Nat.succ_le_succ (ih (some c) rest)

theorem cleanedCore_length_le (s : List Char) : (cleanedCore s).length ≤ s.length := by
  unfold cleanedCore
  refine Nat.le_trans (normalize_spaces_length_le _) ?_
  refine Nat.le_trans (Nat.le_trans (replaceEngDubGo_length_le _ none _)
    (normalize_spaces_length_le _)) ?_
  rw [List.length_map]
  exact dropSiteTag_length_le s

/-!  ## Claim C7 -/

set_option maxHeartbeats 1600000 in
/-- Claim C7 counterexample: `clean_animepahe_stem` is *not* idempotent.  On
`"AnimePahe AnimePahe 5"` one application yields `"AnimePahe 5"` (the tag
removal is anchored and fires once), and a second application strips the
surviving tag down to `"5"`. -/
theorem clean_not_idempotent :
    clean_animepahe_stem doubleTagStem = "AnimePahe 5".data ∧
    clean_animepahe_stem (clean_animepahe_stem doubleTagStem) = "5".data ∧
    clean_animepahe_stem (clean_animepahe_stem doubleTagStem) ≠
      clean_animepahe_stem doubleTagStem := by decide

/-- Claim C7 (amended): `clean_animepahe_stem` is total and safe on every
string — in this model it is a total function over arbitrary `List Char`,
with no precondition on the site tag — and every application can only
shrink (never lengthen) its input; it is *not* idempotent in general. -/
theorem clean_animepahe_stem_length_le (s : List Char) :
    (clean_animepahe_stem s).length ≤ s.length := by
  have hcore := cleanedCore_length_le s
  simp only [clean_animepahe_stem]
  generalize hc : cleanedCore s = c4
  rw [hc] at hcore
  generalize (qMatchEnds c4.length c4 0).getLast? = q
  cases q with
  | some e =>
    refine Nat.le_trans (pyStrip_length_le _) ?_
    rw [List.length_take]
    omega
  | none =>
    generalize lastNumEnd c4 = q2
    cases q2 with
    | some e =>
      refine Nat.le_trans (pyStrip_length_le _) ?_
      rw [List.length_take]
      omega
    | none => exact hcore

/-!  ## Claim C8 -/

theorem getLast_mem_of_eq_some {α : Type} : ∀ (l : List α) (a : α),
    l.getLast? = some a → a ∈ l := by
  intro l
  induction l with
  | nil => intro a h; cases h
  | cons x t ih =>
    intro a h
    cases t with
    | nil =>
      have hx : x = a := by simpa using h
      rw [hx]
      exact List.mem_cons_self _ _
    | cons y u =>
      rw [List.getLast?_cons_cons] at h
      exact List.mem_cons_of_mem _ (ih a h)

theorem tryDigits_bounds : ∀ (n : Nat) (l : List Char) (k : Nat),
    tryDigits n l = some k → 1 ≤ k ∧ k ≤ n := by
  intro n
  induction n with
  | zero => intro l k h; cases h
  | succ m ih =>
    intro l k h
    simp only [tryDigits] at h
    split_ifs at h with hc
    · have := Option.some.inj h
      omega
    · have := ih l k h
      omega

/-- Every recorded match end lies strictly beyond the scan position. -/
theorem qMatchEnds_pos_lt : ∀ (fuel : Nat) (l : List Char) (pos e : Nat),
    e ∈ qMatchEnds fuel l pos → pos < e := by
  intro fuel
  induction fuel with
  | zero => intro l pos e h; cases h
  | succ f ih =>
    intro l pos e h
    cases l with
    | nil => cases h
    | cons c rest =>
      cases ht : tryDigits 4 (c :: rest) with
      | some k =>
        have hk := (tryDigits_bounds 4 _ k ht).1
        have heq : qMatchEnds (f + 1) (c :: rest) pos =
            (pos + k) :: qMatchEnds f ((c :: rest).drop k) (pos + k) := by
          simp [qMatchEnds, ht]
        rw [heq] at h
        rcases List.mem_cons.mp h with rfl | h
        · omega
        · have := ih _ _ _ h
          omega
      | none =>
        have heq : qMatchEnds (f + 1) (c :: rest) pos = qMatchEnds f rest (pos + 1) := by
          simp [qMatchEnds, ht]
        rw [heq] at h
        have := ih _ _ _ h
        omega

/-- The last recorded match end is the rightmost one. -/
theorem qMatchEnds_le_getLast : ∀ (fuel : Nat) (l : List Char) (pos e last : Nat),
    e ∈ qMatchEnds fuel l pos → (qMatchEnds fuel l pos).getLast? = some last →
    e ≤ last := by
  intro fuel
  induction fuel with
  | zero => intro l pos e last he _; cases he
  | succ f ih =>
    intro l pos e last he hlast
    cases l with
    | nil => cases he
    | cons c rest =>
      cases ht : tryDigits 4 (c :: rest) with
      | some k =>
        have heq : qMatchEnds (f + 1) (c :: rest) pos =
            (pos + k) :: qMatchEnds f ((c :: rest).drop k) (pos + k) := by
          simp [qMatchEnds, ht]
        rw [heq] at he hlast
        cases hrec : qMatchEnds f ((c :: rest).drop k) (pos + k) with
        | nil =>
          rw [hrec] at he hlast
          have h1 : e = pos + k := by simpa using he
          have h2 : pos + k = last := by simpa using hlast
          omega
        | cons a t =>
          rw [hrec] at he hlast
          rw [List.getLast?_cons_cons] at hlast
          have hlast' : (qMatchEnds f ((c :: rest).drop k) (pos + k)).getLast? = some last := by
            rw [hrec]
            exact hlast
          rcases List.mem_cons.mp he with rfl | he'
          · have hmem : last ∈ qMatchEnds f ((c :: rest).drop k) (pos + k) :=
              getLast_mem_of_eq_some _ _ hlast'
            have := qMatchEnds_pos_lt f _ _ _ hmem
            omega
          · exact ih _ _ _ _ (hrec ▸ he') hlast'
      | none =>
        have heq : qMatchEnds (f + 1) (c :: rest) pos = qMatchEnds f rest (pos + 1) := by
          simp [qMatchEnds, ht]
        rw [heq] at he hlast
        exact ih _ _ _ _ he hlast

/-- Claim C8 (confirmed): when the scan for a 1–4 digit number followed by a
quality token has at least one match, the cleaner truncates exactly after
the *last* (rightmost) such number — the recorded match end is maximal
among all match ends — and the Dragon Ball literal keeps the second `01`
rather than the movie number. -/
theorem clean_truncates_at_rightmost_quality_number :
    (∀ (stem : List Char) (e : Nat),
       (qMatchEnds (cleanedCore stem).length (cleanedCore stem) 0).getLast? = some e →
       clean_animepahe_stem stem = pyStrip ((cleanedCore stem).take e) ∧
       ∀ e' ∈ qMatchEnds (cleanedCore stem).length (cleanedCore stem) 0, e' ≤ e) ∧
    clean_animepahe_stem dragonStem =
      "Dragon Ball Z Movie 01 - Ora no Gohan wo Kaese (Eng) - 01".data := by
  constructor
  · intro stem e he
    constructor
    · simp only [clean_animepahe_stem]
      rw [he]
    · intro e' he'
      exact qMatchEnds_le_getLast _ _ _ _ _ he' he
  · decide

/-- Witness for C8 at `"Show 5 BD"`: the single match ends at position 6
and the cleaner truncates there, yielding `"Show 5"`. -/
theorem clean_truncates_at_rightmost_quality_number_witness :
    clean_animepahe_stem "Show 5 BD".data =
      pyStrip ((cleanedCore "Show 5 BD".data).take 6) ∧
    clean_animepahe_stem "Show 5 BD".data = "Show 5".data := by
  have h := clean_truncates_at_rightmost_quality_number.1 "Show 5 BD".data 6 (by decide)
  exact ⟨h.1, h.1.trans (by decide)⟩

/-!  ## Claim C10 -/

/-- A tagged component anywhere in the path makes the full-path ignore
check fire, whatever gets appended. -/
theorem should_ignore_extend (tags pp : List (List Char)) (name : List Char)
    (hex : ∃ tag ∈ tags, ∃ part ∈ pp, containsSub tag part = true) :
    should_ignore_directory (pp ++ [name]) tags = true := by
  obtain ⟨tag, htag, part, hpart, hc⟩ := hex
  unfold should_ignore_directory
  have hne : tags.isEmpty = false := by
    cases tags with
    | nil => cases htag
    | cons a t => rfl
  rw [hne]
  simp only [Bool.false_eq_true, if_false]
  exact List.any_eq_true.mpr ⟨part, List.mem_append_left _ hpart,
    List.any_eq_true.mpr ⟨tag, htag, hc⟩⟩

/-- Walk facts for a list of siblings, given them for each member. -/
theorem iterForest_props (tags pp : List (List Char)) :
    ∀ ts : List DirTree,
      (∀ t ∈ ts,
        (∀ d fs, (d, fs) ∈ iter_video_files_by_directory tags pp t →
           should_ignore_directory d tags = false) ∧
        ((∃ tag ∈ tags, ∃ part ∈ pp, containsSub tag part = true) →
           iter_video_files_by_directory tags pp t = [])) →
      (∀ d fs, (d, fs) ∈ iterForest tags pp ts →
         should_ignore_directory d tags = false) ∧
      ((∃ tag ∈ tags, ∃ part ∈ pp, containsSub tag part = true) →
         iterForest tags pp ts = []) := by
  intro ts
  induction ts with
  | nil =>
    intro _
    constructor
    · intro d fs h; cases h
    · intro _; rfl
  | cons t rest ih =>
    intro hall
    have ht := hall t (List.mem_cons_self _ _)
    have hrest := ih (fun u hu => hall u (List.mem_cons_of_mem _ hu))
    have heq : iterForest tags pp (t :: rest) =
        (if tags.any (fun tag => containsSub tag t.dname) then []
         else iter_video_files_by_directory tags pp t) ++ iterForest tags pp rest := rfl
    constructor
    · intro d fs h
      rw [heq] at h
      rcases List.mem_append.mp h with h | h
      · by_cases hp : tags.any (fun tag => containsSub tag t.dname)
        · rw [if_pos hp] at h; cases h
        · rw [if_neg hp] at h
          exact ht.1 d fs h
      · exact hrest.1 d fs h
    · intro hex
      rw [heq, hrest.2 hex]
      by_cases hp : tags.any (fun tag => containsSub tag t.dname)
      · rw [if_pos hp]; rfl
      · rw [if_neg hp, ht.2 hex]; rfl

/-- Walk facts by induction on a size bound. -/
theorem iter_props_aux : ∀ (N : Nat) (t : DirTree), sizeOf t ≤ N →
    ∀ tags pp : List (List Char),
      (∀ d fs, (d, fs) ∈ iter_video_files_by_directory tags pp t →
         should_ignore_directory d tags = false) ∧
      ((∃ tag ∈ tags, ∃ part ∈ pp, containsSub tag part = true) →
         iter_video_files_by_directory tags pp t = []) := by
  intro N
  induction N with
  | zero =>
    intro t h
    exfalso
    cases t with
    | node a b c => simp at h
  | succ N ihN =>
    intro t ht tags pp
    cases t with
    | node name files subs =>
      have hsub : ∀ t' ∈ subs,
          (∀ d fs, (d, fs) ∈ iter_video_files_by_directory tags (pp ++ [name]) t' →
             should_ignore_directory d tags = false) ∧
          ((∃ tag ∈ tags, ∃ part ∈ pp ++ [name], containsSub tag part = true) →
             iter_video_files_by_directory tags (pp ++ [name]) t' = []) := by
        intro t' ht'
        refine ihN t' ?_ tags (pp ++ [name])
        have hlt := List.sizeOf_lt_of_mem ht'
        have hs : sizeOf (DirTree.node name files subs) =
            1 + sizeOf name + sizeOf files + sizeOf subs := by simp
        omega
      have hforest := iterForest_props tags (pp ++ [name]) subs hsub
      have heq : iter_video_files_by_directory tags pp (.node name files subs) =
          (if should_ignore_directory (pp ++ [name]) tags || (scan_filter files).isEmpty
           then []
           else [(pp ++ [name], scan_filter files)]) ++
            iterForest tags (pp ++ [name]) subs := rfl
      constructor
      · intro d fs h
        rw [heq] at h
        rcases List.mem_append.mp h with h | h
        · by_cases hig : should_ignore_directory (pp ++ [name]) tags
            || (scan_filter files).isEmpty
          · rw [if_pos hig] at h; cases h
          · rw [if_neg hig] at h
            have hd : (d, fs) = (pp ++ [name], scan_filter files) := by simpa using h
            have hfalse : should_ignore_directory (pp ++ [name]) tags = false := by
              cases hv : should_ignore_directory (pp ++ [name]) tags with
              | false => rfl
              | true =>
                exfalso
                apply hig
                rw [hv]
                rfl
            have hd1 : d = pp ++ [name] := congrArg Prod.fst hd
            rw [hd1, hfalse]
        · exact hforest.1 d fs h
      · intro hex
        rw [heq]
        have hig : should_ignore_directory (pp ++ [name]) tags = true :=
          should_ignore_extend tags pp name hex
        rw [hig]
        have hex' : ∃ tag ∈ tags, ∃ part ∈ pp ++ [name], containsSub tag part = true := by
          obtain ⟨tag, htag, part, hpart, hc⟩ := hex
          exact ⟨tag, htag, part, List.mem_append_left _ hpart, hc⟩
        rw [hforest.2 hex']
        rfl

/-- Claim C10 (confirmed): the ignore decision is taken over every component
of a directory's full path — no directory whose full path contains a tag
ever appears in the walk output, and when the root path's own components
already contain a tag the entire plan input is empty, whatever the tree
holds. -/
theorem ignore_tags_cover_full_path (tags pp : List (List Char)) (t : DirTree) :
    (∀ d fs, (d, fs) ∈ iter_video_files_by_directory tags pp t →
       should_ignore_directory d tags = false) ∧
    ((∃ tag ∈ tags, ∃ part ∈ pp, containsSub tag part = true) →
       iter_video_files_by_directory tags pp t = []) :=
  iter_props_aux (sizeOf t) t (Nat.le_refl _) tags pp

/-- Witness for C10: a root path component containing `"[skip]"` empties
the walk of `demoTree` even though the tree has eligible video files. -/
theorem ignore_tags_cover_full_path_witness :
    iter_video_files_by_directory ["[skip]".data] ["store [skip] a".data] demoTree = [] :=
  (ignore_tags_cover_full_path ["[skip]".data] ["store [skip] a".data] demoTree).2
    ⟨"[skip]".data, by decide, "store [skip] a".data, by decide, by decide⟩

/-!  ## Claim C9 -/

theorem firstDotIdx_append_first : ∀ l1 l2 : List Char, (∀ x ∈ l1, x ≠ '.') →
    firstDotIdx (l1 ++ '.' :: l2) = some l1.length := by
  intro l1
  induction l1 with
  | nil => intro l2 _; simp [firstDotIdx]
  | cons b t ih =>
    intro l2 h
    have hb : b ≠ '.' := h b (List.mem_cons_self _ _)
    rw [List.cons_append]
    show (if b = '.' then some 0 else (firstDotIdx (t ++ '.' :: l2)).map (· + 1)) =
      some (b :: t).length
    rw [if_neg hb, ih l2 (fun x hx => h x (List.mem_cons_of_mem _ hx))]
    rfl

theorem firstDotIdx_eq_some : ∀ (l : List Char) (j : Nat), firstDotIdx l = some j →
    ∃ pre post, l = pre ++ '.' :: post ∧ pre.length = j ∧ '.' ∉ pre := by
  intro l
  induction l with
  | nil => intro j h; cases h
  | cons b t ih =>
    intro j h
    rw [show firstDotIdx (b :: t) =
      (if b = '.' then some 0 else (firstDotIdx t).map (· + 1)) from rfl] at h
    by_cases hb : b = '.'
    · rw [if_pos hb] at h
      have hj : 0 = j := Option.some.inj h
      refine ⟨[], t, by rw [hb]; rfl, by rw [← hj]; rfl, ?_⟩
      intro hc
      cases hc
    · rw [if_neg hb] at h
      cases hf : firstDotIdx t with
      | none => rw [hf] at h; cases h
      | some j0 =>
        rw [hf] at h
        have hj : j0 + 1 = j := Option.some.inj h
        obtain ⟨pre, post, hl, hlen, hd⟩ := ih j0 hf
        refine ⟨b :: pre, post, by rw [List.cons_append, ← hl],
          by rw [List.length_cons, hlen, hj], ?_⟩
        intro hc
        rcases List.mem_cons.mp hc with hcb | hcp
        · exact hb hcb.symm
        · exact hd hcp

/-- Model: `pathlib` stem/suffix of `ns ++ "." ++ t` when `t` holds the extension
body (nonempty, dot-free) and the stem part `ns` is nonempty. -/
theorem stem_suffix_of_append (ns t : List Char) (hns : ns ≠ []) (ht : t ≠ [])
    (hd : '.' ∉ t) :
    suffixOf (ns ++ '.' :: t) = '.' :: t ∧ stemOf (ns ++ '.' :: t) = ns := by
  have hrev : (ns ++ '.' :: t).reverse = t.reverse ++ '.' :: ns.reverse := by
    rw [List.reverse_append, List.reverse_cons, List.append_assoc, List.singleton_append]
  have hfind : firstDotIdx ((ns ++ '.' :: t).reverse) = some t.reverse.length := by
    rw [hrev]
    refine firstDotIdx_append_first _ _ ?_
    intro x hx hxe
    exact hd (hxe ▸ List.mem_reverse.mp hx)
  have hlen : (ns ++ '.' :: t).length = ns.length + (t.length + 1) := by
    rw [List.length_append, List.length_cons]
  have hi : (ns ++ '.' :: t).length - 1 - t.reverse.length = ns.length := by
    rw [List.length_reverse, hlen]
    omega
  have htne : t.length ≠ 0 := fun h0 => ht (List.length_eq_zero.mp h0)
  have hnsne : ns.length ≠ 0 := fun h0 => hns (List.length_eq_zero.mp h0)
  have hcond : 0 < (ns ++ '.' :: t).length - 1 - t.reverse.length ∧
      (ns ++ '.' :: t).length - 1 - t.reverse.length < (ns ++ '.' :: t).length - 1 := by
    rw [hi, hlen]
    omega
  have hsfx : suffixOf (ns ++ '.' :: t) =
      if 0 < (ns ++ '.' :: t).length - 1 - t.reverse.length ∧
        (ns ++ '.' :: t).length - 1 - t.reverse.length < (ns ++ '.' :: t).length - 1
      then (ns ++ '.' :: t).drop ((ns ++ '.' :: t).length - 1 - t.reverse.length)
      else [] := by
    unfold suffixOf lastDotIdx
    rw [hfind]
  have hstm : stemOf (ns ++ '.' :: t) =
      if 0 < (ns ++ '.' :: t).length - 1 - t.reverse.length ∧
        (ns ++ '.' :: t).length - 1 - t.reverse.length < (ns ++ '.' :: t).length - 1
      then (ns ++ '.' :: t).take ((ns ++ '.' :: t).length - 1 - t.reverse.length)
      else ns ++ '.' :: t := by
    unfold stemOf lastDotIdx
    rw [hfind]
  constructor
  · rw [hsfx, if_pos hcond, hi]
    exact List.drop_left _ _
  · rw [hstm, if_pos hcond, hi]
    exact List.take_left _ _

/-- A nonempty `pathlib` suffix starts with its (unique last) dot. -/
theorem suffixOf_shape (n : List Char) :
    suffixOf n = [] ∨ ∃ t, suffixOf n = '.' :: t ∧ '.' ∉ t := by
  cases hf : firstDotIdx n.reverse with
  | none =>
    left
    unfold suffixOf lastDotIdx
    rw [hf]
  | some j =>
    have heq : suffixOf n =
        if 0 < n.length - 1 - j ∧ n.length - 1 - j < n.length - 1
        then n.drop (n.length - 1 - j) else [] := by
      unfold suffixOf lastDotIdx
      rw [hf]
    by_cases hc : 0 < n.length - 1 - j ∧ n.length - 1 - j < n.length - 1
    · right
      obtain ⟨pre, post, hl, hlen, hd⟩ := firstDotIdx_eq_some _ j hf
      have hn : n = post.reverse ++ '.' :: pre.reverse := by
        have h2 := congrArg List.reverse hl
        rw [List.reverse_reverse] at h2
        rw [h2, List.reverse_append, List.reverse_cons, List.append_assoc,
          List.singleton_append]
      have hlen2 : n.length = post.length + (pre.length + 1) := by
        have h3 := congrArg List.length hl
        rw [List.length_reverse, List.length_append, List.length_cons] at h3
        omega
      have hi : n.length - 1 - j = post.length := by omega
      refine ⟨pre.reverse, ?_, ?_⟩
      · rw [heq, if_pos hc, hi]
        calc n.drop post.length
            = (post.reverse ++ '.' :: pre.reverse).drop post.reverse.length := by
              rw [← hn, List.length_reverse]
          _ = '.' :: pre.reverse := List.drop_left _ _
      · intro hmem
        exact hd (List.mem_reverse.mp hmem)
    · left
      rw [heq, if_neg hc]

theorem listPrefixEq_dot_cons (t : List Char) : listPrefixEq ['.'] ('.' :: t) = true := by
  show (('.' == '.') && listPrefixEq [] t) = true
  rfl

/-- What the scanner's keep-test guarantees about a name. -/
theorem scan_keep_facts (n : List Char) (h : scan_keep n = true) :
    listPrefixEq ['.'] n = false ∧ 3 ≤ (suffixOf n).length := by
  unfold scan_keep at h
  rw [Bool.and_eq_true] at h
  obtain ⟨h1, h2⟩ := h
  constructor
  · cases hb : listPrefixEq ['.'] n with
    | false => rfl
    | true => rw [hb] at h1; cases h1
  · obtain ⟨e, he, heq⟩ := List.any_eq_true.mp h2
    have hel : e = lowerList (suffixOf n) := by simpa using heq
    have hlen : e.length = (suffixOf n).length := by
      rw [hel]
      unfold lowerList
      rw [List.length_map]
    have h3 : 3 ≤ e.length := by
      simp only [videoExtensions, List.mem_cons, List.not_mem_nil, or_false] at he
      rcases he with rfl | rfl | rfl | rfl | rfl | rfl | rfl | rfl <;> decide
    omega

theorem candidate_stem_of_not_tagged (s : List Char)
    (h : listPrefixEq sitePrefixChars s = false) : candidate_stem s = s := by
  unfold candidate_stem
  rw [h]
  rfl

theorem new_stem_of_extract_some (w : Nat) (s : List Char) (k : Nat)
    (h : extract_trailing_int (candidate_stem s) = some k) :
    new_stem w s = replace_trailing_int_with_zfill (candidate_stem s) w := by
  simp only [new_stem]
  rw [h]

theorem new_stem_of_extract_none (w : Nat) (s : List Char)
    (h : extract_trailing_int (candidate_stem s) = none) :
    new_stem w s = candidate_stem s := by
  simp only [new_stem]
  rw [h]

/-- Renaming keeps the extracted episode number (value included). -/
theorem extract_new_stem (w : Nat) (s : List Char) :
    extract_trailing_int (new_stem w s) = extract_trailing_int (candidate_stem s) := by
  cases he : extract_trailing_int (candidate_stem s) with
  | some k =>
    rw [new_stem_of_extract_some w s k he]
    exact extract_pad _ k w he
  | none =>
    rw [new_stem_of_extract_none w s he]
    exact he

/-- Re-deriving the new stem at any smaller-or-equal width is the
identity, provided the renamed stem is not itself site-tagged. -/
theorem new_stem_fixpoint (w w2 : Nat) (s : List Char) (hw : w2 ≤ w)
    (hns : listPrefixEq sitePrefixChars (new_stem w s) = false) :
    new_stem w2 (new_stem w s) = new_stem w s := by
  have hcand : candidate_stem (new_stem w s) = new_stem w s :=
    candidate_stem_of_not_tagged _ hns
  cases he : extract_trailing_int (candidate_stem s) with
  | some k =>
    have h1 : new_stem w s = replace_trailing_int_with_zfill (candidate_stem s) w :=
      new_stem_of_extract_some w s k he
    have h2 : extract_trailing_int (new_stem w s) = some k := by
      rw [extract_new_stem, he]
    rw [new_stem_of_extract_some w2 (new_stem w s) k (by rw [hcand]; exact h2), hcand, h1]
    exact pad_pad (candidate_stem s) k w w2 he hw
  | none =>
    have h2 : extract_trailing_int (new_stem w s) = none := by
      rw [extract_new_stem, he]
    rw [new_stem_of_extract_none w2 (new_stem w s) (by rw [hcand]; exact h2), hcand]

theorem two_le_determine (nums : List Nat) : 2 ≤ determine_episode_width nums := by
  unfold determine_episode_width
  by_cases h : nums.isEmpty
  · rw [if_pos h]
  · rw [if_neg h]
    exact Nat.le_max_left _ _

/-- Decomposing a member of the re-scanned post-execution listing. -/
theorem exec_member_split (files : List (List Char))
    (hv : ∀ n ∈ files, scan_keep n = true)
    (m : List Char) (hm : m ∈ scan_filter (executed_group files)) :
    ∃ n ∈ files, m = new_name (group_width files) n ∧
      stemOf m = new_stem (group_width files) (stemOf n) ∧
      suffixOf m = suffixOf n := by
  obtain ⟨hmem, hkeep⟩ := List.mem_filter.mp hm
  obtain ⟨n, hn, hmn⟩ := List.mem_map.mp hmem
  have hsfxlen := (scan_keep_facts n (hv n hn)).2
  obtain ⟨t, hsfx, hdot⟩ := (suffixOf_shape n).resolve_left (by
    intro h0
    rw [h0] at hsfxlen
    simp at hsfxlen)
  have htne : t ≠ [] := by
    intro h0
    rw [h0] at hsfx
    rw [hsfx] at hsfxlen
    simp at hsfxlen
  have hnsne : new_stem (group_width files) (stemOf n) ≠ [] := by
    intro h0
    have hmeq : m = '.' :: t := by
      rw [← hmn]
      unfold new_name
      rw [h0, hsfx, List.nil_append]
    have := (scan_keep_facts m hkeep).1
    rw [hmeq, listPrefixEq_dot_cons] at this
    cases this
  have hpair := stem_suffix_of_append (new_stem (group_width files) (stemOf n)) t
    hnsne htne hdot
  have hmeq : m = new_stem (group_width files) (stemOf n) ++ '.' :: t := by
    rw [← hmn]
    unfold new_name
    rw [hsfx]
  refine ⟨n, hn, hmn.symm, ?_, ?_⟩
  · rw [hmeq, hpair.2]
  · rw [hmeq, hpair.1, hsfx]

/-- The second scan's episode numbers all come from the first plan. -/
theorem planned_eps_exec_sub (files : List (List Char))
    (hv : ∀ n ∈ files, scan_keep n = true)
    (hp : ∀ n ∈ files, listPrefixEq sitePrefixChars
        (new_stem (group_width files) (stemOf n)) = false) :
    ∀ v ∈ planned_eps (scan_filter (executed_group files)), v ∈ planned_eps files := by
  intro v hvmem
  obtain ⟨m, hm, hext⟩ := List.mem_filterMap.mp hvmem
  obtain ⟨n, hn, _, hstem, _⟩ := exec_member_split files hv m hm
  rw [hstem, candidate_stem_of_not_tagged _ (hp n hn), extract_new_stem] at hext
  exact List.mem_filterMap.mpr ⟨n, hn, hext⟩

/-- The second scan's group width never exceeds the first one. -/
theorem group_width_exec_le (files : List (List Char))
    (hsub : ∀ v ∈ planned_eps (scan_filter (executed_group files)),
      v ∈ planned_eps files) :
    group_width (scan_filter (executed_group files)) ≤ group_width files := by
  by_cases he : (planned_eps (scan_filter (executed_group files))).isEmpty
  · have h2 : group_width (scan_filter (executed_group files)) = 2 := by
      unfold group_width determine_episode_width
      rw [if_pos he]
    rw [h2]
    exact two_le_determine _
  · have hLne : planned_eps (scan_filter (executed_group files)) ≠ [] := by
      intro h0
      rw [h0] at he
      exact he rfl
    have hmem2 := maxNatList_mem _ hLne
    have hmem1 := hsub _ hmem2
    have hfne : (planned_eps files).isEmpty = false := by
      cases hc : planned_eps files with
      | nil => rw [hc] at hmem1; cases hmem1
      | cons a tl => rfl
    have heL : (planned_eps (scan_filter (executed_group files))).isEmpty = false := by
      cases hc : planned_eps (scan_filter (executed_group files)) with
      | nil => exact absurd hc hLne
      | cons a tl => rfl
    have hle : maxNatList (planned_eps (scan_filter (executed_group files))) ≤
        maxNatList (planned_eps files) := le_foldl_max _ 0 _ hmem1
    have hdc := digitCount_mono _ _ hle
    unfold group_width determine_episode_width
    rw [heL, hfne]
    show max 2 (digitCount (maxNatList (planned_eps (scan_filter (executed_group files))))) ≤
      max 2 (digitCount (maxNatList (planned_eps files)))
    exact max_le_max (Nat.le_refl 2) hdc

set_option maxHeartbeats 1600000 in
/-- Claim C9 counterexample: plan–execute–plan is *not* idempotent.  In a
directory holding only `"AnimePahe_AnimePahe_Foo_5.mp4"`, the first plan
renames it to `"AnimePahe Foo 05.mp4"` (cleaning strips one site tag,
padding widens the 5); re-planning over the executed directory emits a
second, different rename since the new stem again starts with the tag. -/
theorem plan_not_idempotent_after_execute :
    build_rename_ops_group (scan_filter (executed_group doubleTagFiles)) =
      [⟨"AnimePahe Foo 05.mp4".data, "Foo 05.mp4".data⟩] ∧
    build_rename_ops_group (scan_filter (executed_group doubleTagFiles)) ≠ [] := by
  decide

/-- Claim C9 (amended): plan–execute–plan over one directory group yields an
empty second plan *provided* no planned destination stem itself begins
with the site tag.  The hypotheses: every file of the group is one the
scanner reports (non-hidden, recognised video extension), and no new stem
is site-tagged; the second plan runs over the scanner's view of the
executed directory. -/
theorem plan_idempotent_after_execute (files : List (List Char))
    (hv : ∀ n ∈ files, scan_keep n = true)
    (hp : ∀ n ∈ files, listPrefixEq sitePrefixChars
        (new_stem (group_width files) (stemOf n)) = false) :
    build_rename_ops_group (scan_filter (executed_group files)) = [] := by
  have hsub := planned_eps_exec_sub files hv hp
  have hw2 := group_width_exec_le files hsub
  simp only [build_rename_ops_group]
  rw [List.filterMap_eq_nil_iff]
  intro m hm
  obtain ⟨n, hn, hmn, hstem, hsfx⟩ := exec_member_split files hv m hm
  have hfix : new_stem (group_width (scan_filter (executed_group files))) (stemOf m) =
      stemOf m := by
    rw [hstem]
    exact new_stem_fixpoint (group_width files) _ (stemOf n) hw2 (hp n hn)
  have hname : new_name (group_width (scan_filter (executed_group files))) m = m := by
    unfold new_name
    rw [hfix, hstem, hsfx]
    exact hmn.symm
  rw [if_pos hname]

/-- Witness for C9 on `{"Show 1.mp4", "Show 10.mp4"}`: the first plan pads
`1` to `01`; re-planning the renamed directory plans nothing. -/
theorem plan_idempotent_after_execute_witness :
    build_rename_ops_group (scan_filter (executed_group demoGroup)) = [] :=
  plan_idempotent_after_execute demoGroup (by decide) (by decide)

end AnimepaheDl
